import Mathlib

/-!
Verification of the tiered-storage remote segment subsystem (redpanda).

Shallow embedding of:
  * `storage::segment` (src/v/storage/segment.h) — the local segment facade
    over reader / appender / batch cache;
  * the on-disk record-batch framing and its incremental parse loop,
    modelled from the spec (the parse loop implementation is not part of
    the sources, only its declaration in storage/parser.h is referenced);
  * `cloud_storage::remote_segment_batch_reader` (read_some driver),
    the segment cache state machine, and the hydration protocol,
    modelled from the spec (declarations only in
    src/v/cloud_storage/remote_segment.h).
-/

namespace storage

/-- Embeds `storage::segment_appender`: only the file byte offset is
relevant to `segment::empty` / `segment::size_bytes`. -/
structure segment_appender where
  file_byte_offset : Nat
deriving DecidableEq, Repr

/-- Embeds `storage::segment_reader`: `empty()` and `file_size()` as
abstract observations. -/
structure segment_reader where
  is_empty : Bool
  file_size : Nat
deriving DecidableEq, Repr

/-- Embeds `model::record_batch` at the level of detail the batch cache
needs: base offset and a size. -/
structure record_batch where
  base_offset : Int
  size_bytes : Nat
deriving DecidableEq, Repr

/-- Embeds `storage::batch_cache_index::read_result`
(designated-initializer defaults: no batches). -/
structure read_result where
  batches : List record_batch := []
  next_batch : Int
deriving DecidableEq, Repr

/-- Embeds `storage::batch_cache_index` abstractly: a `read` observation
and a `put` update (their bodies are outside the sources). -/
structure batch_cache_index where
  read_fn :
    Int → Int → Option Nat → Option Nat → Nat → read_result
  put_fn : record_batch → batch_cache_index

/-- Embeds `storage::segment::offset_tracker`. -/
structure offset_tracker where
  term : Nat
  base_offset : Int
  committed_offset : Int
  dirty_offset : Int

/-- Embeds `storage::segment` (fields used by the claims; the compaction
index and lock state are irrelevant to them and kept abstract). -/
structure segment where
  tracker : offset_tracker
  reader : segment_reader
  appender : Option segment_appender
  cache : Option batch_cache_index
  tombstone : Bool
  closed : Bool

/-- Embeds `segment::empty()`:
if `_appender` is set, `_appender->file_byte_offset() == 0`,
else `_reader.empty()`. -/
def segment.empty (s : segment) : Bool :=
  match s.appender with
  | some a => a.file_byte_offset == 0
  | none => s.reader.is_empty

/-- Embeds `segment::size_bytes()`:
if `_appender` is set, `_appender->file_byte_offset()`,
else `_reader.file_size()`. -/
def segment.size_bytes (s : segment) : Nat :=
  match s.appender with
  | some a => a.file_byte_offset
  | none => s.reader.file_size

/-- Embeds `segment::cache_get`: delegate to `_cache->read(...)` when the
cache is configured, else return `read_result{.next_batch = offset}`. -/
def segment.cache_get (s : segment) (offset max_offset : Int)
    (type_filter first_ts : Option Nat) (max_bytes : Nat) : read_result :=
  match s.cache with
  | some c => c.read_fn offset max_offset type_filter first_ts max_bytes
  | none => { next_batch := offset }

/-- Embeds `segment::cache_put`: `_cache->put(batch)` when the cache is
configured, else nothing happens. -/
def segment.cache_put (s : segment) (batch : record_batch) : segment :=
  match s.cache with
  | some c => { s with cache := some (c.put_fn batch) }
  | none => s

end storage

namespace storage

/-- Claim C9: for a `storage::segment` with an appender, `empty()` holds
exactly when the appender's file byte offset is 0 and `size_bytes()` is
that offset; without an appender both delegate to the segment reader. -/
theorem segment_empty_size_bytes_delegation (s : segment) :
    (∀ a, s.appender = some a →
      ((s.empty = true ↔ a.file_byte_offset = 0)
        ∧ s.size_bytes = a.file_byte_offset))
    ∧ (s.appender = none →
      (s.empty = s.reader.is_empty ∧ s.size_bytes = s.reader.file_size)) := by
  constructor
  · intro a ha
    constructor
    · simp [segment.empty, ha]
    · simp [segment.size_bytes, ha]
  · intro ha
    constructor
    · simp [segment.empty, ha]
    · simp [segment.size_bytes, ha]

/-- A concrete segment with an appender at byte offset 5. -/
def seg_with_appender : segment :=
  { tracker := ⟨1, 0, 0, 0⟩
    reader := ⟨false, 77⟩
    appender := some ⟨5⟩
    cache := none
    tombstone := false
    closed := false }

/-- A concrete segment with no appender and no batch cache. -/
def seg_plain : segment :=
  { tracker := ⟨1, 0, 0, 0⟩
    reader := ⟨false, 77⟩
    appender := none
    cache := none
    tombstone := false
    closed := false }

/-- Witness for C9 at concrete segments. -/
theorem segment_empty_size_bytes_delegation_witness :
    ((seg_with_appender.empty = true ↔ (5 : Nat) = 0)
      ∧ seg_with_appender.size_bytes = 5)
    ∧ (seg_plain.empty = seg_plain.reader.is_empty
      ∧ seg_plain.size_bytes = seg_plain.reader.file_size) :=
  ⟨(segment_empty_size_bytes_delegation seg_with_appender).1 ⟨5⟩ rfl,
   (segment_empty_size_bytes_delegation seg_plain).2 rfl⟩

/-- Claim C10: a `storage::segment` without a configured batch cache
answers `cache_get` with an empty `read_result` whose `next_batch` is the
requested offset, and `cache_put` leaves the segment unchanged. -/
theorem segment_cache_miss_defaults (s : segment)
    (h : s.cache = none) (offset max_offset : Int)
    (tf fts : Option Nat) (mb : Nat) (b : record_batch) :
    s.cache_get offset max_offset tf fts mb
        = { batches := [], next_batch := offset }
    ∧ s.cache_put b = s := by
  constructor
  · simp [segment.cache_get, h]
  · simp [segment.cache_put, h]

/-- Witness for C10 at a concrete cacheless segment. -/
theorem segment_cache_miss_defaults_witness :
    seg_plain.cache_get 42 99 none none 1000
        = { batches := [], next_batch := 42 }
    ∧ seg_plain.cache_put ⟨7, 10⟩ = seg_plain :=
  segment_cache_miss_defaults seg_plain rfl 42 99 none none 1000 ⟨7, 10⟩

end storage

namespace cloud_storage

/-- A record batch as seen by `remote_segment_batch_reader`: physical
base/last offsets, record count, serialized size, and whether it is a
data batch (control/config batches are non-data). -/
structure record_batch where
  base_offset : Int
  last_offset : Int
  record_count : Nat
  size_bytes : Nat
  is_data : Bool
deriving DecidableEq, Repr

/-- Embeds `cloud_storage::log_reader_config` at the granularity the
reader algorithm uses: offset range, byte/batch budget, and whether the
configuration is in the logical (kafka) offset space. -/
structure log_reader_config where
  start_offset : Int
  max_offset : Int
  max_bytes : Nat
  max_batches : Nat
  translate_offsets : Bool
deriving DecidableEq, Repr

/-- Fatal reader errors surfaced by `read_some`. -/
inductive read_error
  | data_corruption
deriving DecidableEq, Repr

/-- State of a `remote_segment_batch_reader`: the unread suffix of the
segment's batch stream (`stream`, with `corrupt` recording that the
stream ends in a corrupted region), the `_done` flag, a pending
corruption error not yet surfaced, the ring buffer `_ringbuf` of
admitted batches paired with the running delta at admission,
`_total_size`, the running delta and the `_initial_delta` snapshot. -/
structure reader_state where
  stream : List record_batch
  corrupt : Bool
  done : Bool
  err_pending : Bool
  ringbuf : List (record_batch × Nat)
  total_size : Nat
  delta : Nat
  initial_delta : Nat
deriving DecidableEq, Repr

/-- Result of driving the batch consumer loop once. -/
structure consume_result where
  remaining : List record_batch
  ring : List (record_batch × Nat)
  total : Nat
  delta : Nat
  reached_end : Bool
deriving DecidableEq, Repr

/-- Modelled from the spec: the consumer installed by
`remote_segment_batch_reader::read_some` (its implementation is not in
the sources). It skips non-data batches while accounting their record
count into the running delta, filters batches whose max physical offset
is below `config.start_offset`, stops when a batch's base physical
offset exceeds `config.max_offset`, admits the batch into the ring
buffer, and stops once the cumulative size reaches `config.max_bytes`
or the ring holds `config.max_batches` batches. -/
def consume (cfg : log_reader_config) :
    List record_batch → List (record_batch × Nat) → Nat → Nat →
    consume_result
  | [], ring, total, d => ⟨[], ring, total, d, true⟩
  | b :: rest, ring, total, d =>
    if b.is_data = false then
      consume cfg rest ring total (d + b.record_count)
    else if b.last_offset < cfg.start_offset then
      consume cfg rest ring total d
    else if cfg.max_offset < b.base_offset then
      ⟨b :: rest, ring, total, d, false⟩
    else
      let ring' := ring ++ [(b, d)]
      let total' := total + b.size_bytes
      if cfg.max_bytes ≤ total' ∨ cfg.max_batches ≤ ring'.length then
        ⟨rest, ring', total', d, false⟩
      else consume cfg rest ring' total' d

/-- Modelled from the spec: offset translation on emission —
`logical_base = physical_base - delta_at_batch` when the configuration
is in the logical offset space, identity otherwise. -/
def emit (cfg : log_reader_config) (p : record_batch × Nat) :
    record_batch :=
  if cfg.translate_offsets then
    { p.1 with
        base_offset := p.1.base_offset - (p.2 : Int)
        last_offset := p.1.last_offset - (p.2 : Int) }
  else p.1

/-- Modelled from the spec: `remote_segment_batch_reader::read_some`
(implementation not in the sources). Returns the terminal empty
sequence once `_done`; surfaces a pending corruption error and becomes
done; otherwise drives the consumer, drains the ring into the result,
marks `_done` at end-of-stream, and on a corrupted stream end either
surfaces `data_corruption` (empty ring) or returns the buffered batches
first and surfaces the error on the next call. A surfaced parse never
leaves a partially parsed batch in the ring: only complete batches are
ever admitted, and the ring is drained on every return. -/
def read_some (cfg : log_reader_config) (st : reader_state) :
    Except read_error (List record_batch) × reader_state :=
  if st.done then (.ok [], st)
  else if st.err_pending then
    (.error .data_corruption,
     { st with done := true, err_pending := false, ringbuf := [] })
  else
    let r := consume cfg st.stream st.ringbuf st.total_size st.delta
    if r.reached_end then
      if st.corrupt then
        if r.ring = [] then
          (.error .data_corruption,
           { st with stream := [], done := true, ringbuf := [],
                     total_size := r.total, delta := r.delta })
        else
          (.ok (r.ring.map (emit cfg)),
           { st with stream := [], err_pending := true, ringbuf := [],
                     total_size := r.total, delta := r.delta })
      else
        (.ok (r.ring.map (emit cfg)),
         { st with stream := [], done := true, ringbuf := [],
                   total_size := r.total, delta := r.delta })
    else
      (.ok (r.ring.map (emit cfg)),
       { st with stream := r.remaining, ringbuf := [],
                 total_size := r.total, delta := r.delta })

/-- The state transformer of one `read_some` call. -/
def read_step (cfg : log_reader_config) (st : reader_state) :
    reader_state :=
  (read_some cfg st).2

/-- Concatenation of the batches emitted by `n` successive `read_some`
calls (error results emit nothing). -/
def read_trace (cfg : log_reader_config) :
    reader_state → Nat → List record_batch
  | _, 0 => []
  | st, n + 1 =>
    match read_some cfg st with
    | (.ok l, st') => l ++ read_trace cfg st' n
    | (.error _, st') => read_trace cfg st' n

/-- Total record count of the non-data batches of a stream: the amount
by which the running delta can grow while reading it. -/
def nondata_sum : List record_batch → Nat
  | [] => 0
  | b :: rest =>
    (if b.is_data then 0 else b.record_count) + nondata_sum rest

theorem consume_nil (cfg : log_reader_config) (ring total d) :
    consume cfg [] ring total d = ⟨[], ring, total, d, true⟩ := rfl

theorem consume_nondata (cfg : log_reader_config) (b rest ring total d)
    (h : b.is_data = false) :
    consume cfg (b :: rest) ring total d
      = consume cfg rest ring total (d + b.record_count) := by
  simp [consume, h]

theorem consume_filtered (cfg : log_reader_config) (b rest ring total d)
    (h : b.is_data = true) (hf : b.last_offset < cfg.start_offset) :
    consume cfg (b :: rest) ring total d
      = consume cfg rest ring total d := by
  simp [consume, h, hf]

theorem consume_stop_offset (cfg : log_reader_config) (b rest ring total d)
    (h : b.is_data = true) (hf : ¬ b.last_offset < cfg.start_offset)
    (hs : cfg.max_offset < b.base_offset) :
    consume cfg (b :: rest) ring total d
      = ⟨b :: rest, ring, total, d, false⟩ := by
  simp [consume, h, hf, hs]

theorem consume_admit_stop (cfg : log_reader_config) (b rest ring total d)
    (h : b.is_data = true) (hf : ¬ b.last_offset < cfg.start_offset)
    (hs : ¬ cfg.max_offset < b.base_offset)
    (hb : cfg.max_bytes ≤ total + b.size_bytes
      ∨ cfg.max_batches ≤ ring.length + 1) :
    consume cfg (b :: rest) ring total d
      = ⟨rest, ring ++ [(b, d)], total + b.size_bytes, d, false⟩ := by
  simp [consume, h, hf, hs, hb]

theorem consume_admit_go (cfg : log_reader_config) (b rest ring total d)
    (h : b.is_data = true) (hf : ¬ b.last_offset < cfg.start_offset)
    (hs : ¬ cfg.max_offset < b.base_offset)
    (hb : ¬ (cfg.max_bytes ≤ total + b.size_bytes
      ∨ cfg.max_batches ≤ ring.length + 1)) :
    consume cfg (b :: rest) ring total d
      = consume cfg rest (ring ++ [(b, d)]) (total + b.size_bytes) d := by
  simp [consume, h, hf, hs]
  intro hby
  simp [hby] at hb

/-- The consumer only appends to the ring, and the appended batches
followed by the unconsumed remainder form a sublist of the input:
nothing is reordered or duplicated. -/
theorem consume_ring_decomp (cfg : log_reader_config)
    (input : List record_batch) :
    ∀ ring total d, ∃ adds,
      (consume cfg input ring total d).ring = ring ++ adds
      ∧ List.Sublist
          (adds.map Prod.fst ++ (consume cfg input ring total d).remaining)
          input := by
  induction input with
  | nil =>
    intro ring total d
    exact ⟨[], by simp [consume_nil], by simp [consume_nil]⟩
  | cons b rest ih =>
    intro ring total d
    by_cases hd : b.is_data = false
    · obtain ⟨adds, h1, h2⟩ := ih ring total (d + b.record_count)
      exact ⟨adds, by rw [consume_nondata cfg b rest ring total d hd]; exact h1,
        by rw [consume_nondata cfg b rest ring total d hd]
           exact List.Sublist.cons b h2⟩
    · have hd' : b.is_data = true := by
        revert hd; cases b.is_data <;> simp
      by_cases hf : b.last_offset < cfg.start_offset
      · obtain ⟨adds, h1, h2⟩ := ih ring total d
        exact ⟨adds,
          by rw [consume_filtered cfg b rest ring total d hd' hf]; exact h1,
          by rw [consume_filtered cfg b rest ring total d hd' hf]
             exact List.Sublist.cons b h2⟩
      · by_cases hs : cfg.max_offset < b.base_offset
        · refine ⟨[], ?_, ?_⟩
          · rw [consume_stop_offset cfg b rest ring total d hd' hf hs]; simp
          · rw [consume_stop_offset cfg b rest ring total d hd' hf hs]; simp
        · by_cases hb : cfg.max_bytes ≤ total + b.size_bytes
            ∨ cfg.max_batches ≤ ring.length + 1
          · refine ⟨[(b, d)], ?_, ?_⟩
            · rw [consume_admit_stop cfg b rest ring total d hd' hf hs hb]
            · rw [consume_admit_stop cfg b rest ring total d hd' hf hs hb]
              simp
          · obtain ⟨adds, h1, h2⟩
              := ih (ring ++ [(b, d)]) (total + b.size_bytes) d
            refine ⟨(b, d) :: adds, ?_, ?_⟩
            · rw [consume_admit_go cfg b rest ring total d hd' hf hs hb, h1]
              simp
            · rw [consume_admit_go cfg b rest ring total d hd' hf hs hb]
              simpa using List.Sublist.cons₂ b h2

/-- Every batch the consumer adds to the ring is a data batch, passed
the start-offset filter and the max-offset stop check, and was admitted
at a running delta between the entry delta and the entry delta plus the
total non-data record count of the input. -/
theorem consume_ring_mem (cfg : log_reader_config)
    (input : List record_batch) :
    ∀ ring total d p, p ∈ (consume cfg input ring total d).ring →
      p ∈ ring ∨
        (p.1.is_data = true ∧ cfg.start_offset ≤ p.1.last_offset
          ∧ p.1.base_offset ≤ cfg.max_offset
          ∧ d ≤ p.2 ∧ p.2 ≤ d + nondata_sum input) := by
  induction input with
  | nil =>
    intro ring total d p hp
    rw [consume_nil] at hp
    exact Or.inl hp
  | cons b rest ih =>
    intro ring total d p hp
    by_cases hd : b.is_data = false
    · rw [consume_nondata cfg b rest ring total d hd] at hp
      rcases ih ring total (d + b.record_count) p hp with h | ⟨h1, h2, h3, h4, h5⟩
      · exact Or.inl h
      · refine Or.inr ⟨h1, h2, h3, by omega, ?_⟩
        simp [nondata_sum, hd]
        omega
    · have hd' : b.is_data = true := by
        revert hd; cases b.is_data <;> simp
      by_cases hf : b.last_offset < cfg.start_offset
      · rw [consume_filtered cfg b rest ring total d hd' hf] at hp
        rcases ih ring total d p hp with h | ⟨h1, h2, h3, h4, h5⟩
        · exact Or.inl h
        · refine Or.inr ⟨h1, h2, h3, h4, ?_⟩
          simp [nondata_sum, hd']
          omega
      · by_cases hs : cfg.max_offset < b.base_offset
        · rw [consume_stop_offset cfg b rest ring total d hd' hf hs] at hp
          exact Or.inl hp
        · by_cases hb : cfg.max_bytes ≤ total + b.size_bytes
            ∨ cfg.max_batches ≤ ring.length + 1
          · rw [consume_admit_stop cfg b rest ring total d hd' hf hs hb] at hp
            simp at hp
            rcases hp with h | h
            · exact Or.inl h
            · subst h
              exact Or.inr ⟨hd', not_lt.mp hf, not_lt.mp hs,
                le_refl d, Nat.le_add_right d _⟩
          · rw [consume_admit_go cfg b rest ring total d hd' hf hs hb] at hp
            rcases ih (ring ++ [(b, d)]) (total + b.size_bytes) d p hp
              with h | ⟨h1, h2, h3, h4, h5⟩
            · simp at h
              rcases h with h | h
              · exact Or.inl h
              · subst h
                exact Or.inr ⟨hd', not_lt.mp hf, not_lt.mp hs,
                  le_refl d, Nat.le_add_right d _⟩
            · refine Or.inr ⟨h1, h2, h3, h4, ?_⟩
              simp [nondata_sum, hd']
              omega

/-- Along the consumer loop the running delta never decreases, every
ring entry's admission delta is bounded by the final delta, and the
admission deltas are listed in non-decreasing order. -/
theorem consume_delta_mono (cfg : log_reader_config)
    (input : List record_batch) :
    ∀ ring total d,
      (∀ p ∈ ring, p.2 ≤ d) →
      List.Pairwise (fun p q => p.2 ≤ q.2) ring →
      ((∀ p ∈ (consume cfg input ring total d).ring,
          p.2 ≤ (consume cfg input ring total d).delta)
        ∧ List.Pairwise (fun p q => p.2 ≤ q.2)
            (consume cfg input ring total d).ring
        ∧ d ≤ (consume cfg input ring total d).delta) := by
  induction input with
  | nil =>
    intro ring total d hub hpw
    rw [consume_nil]
    exact ⟨hub, hpw, le_refl d⟩
  | cons b rest ih =>
    intro ring total d hub hpw
    by_cases hd : b.is_data = false
    · rw [consume_nondata cfg b rest ring total d hd]
      have hub' : ∀ p ∈ ring, p.2 ≤ d + b.record_count :=
        fun p hp => le_trans (hub p hp) (Nat.le_add_right d _)
      obtain ⟨a1, a2, a3⟩ := ih ring total (d + b.record_count) hub' hpw
      exact ⟨a1, a2, le_trans (Nat.le_add_right d _) a3⟩
    · have hd' : b.is_data = true := by
        revert hd; cases b.is_data <;> simp
      by_cases hf : b.last_offset < cfg.start_offset
      · rw [consume_filtered cfg b rest ring total d hd' hf]
        exact ih ring total d hub hpw
      · by_cases hs : cfg.max_offset < b.base_offset
        · rw [consume_stop_offset cfg b rest ring total d hd' hf hs]
          exact ⟨hub, hpw, le_refl d⟩
        · have hub' : ∀ p ∈ ring ++ [(b, d)], p.2 ≤ d := by
            intro p hp
            rcases List.mem_append.mp hp with h | h
            · exact hub p h
            · simp at h; subst h; exact le_refl d
          have hpw' : List.Pairwise (fun p q => p.2 ≤ q.2)
              (ring ++ [(b, d)]) := by
            rw [List.pairwise_append]
            exact ⟨hpw, List.pairwise_singleton _ _,
              fun p hp q hq => by simp at hq; subst hq; exact hub p hp⟩
          by_cases hb : cfg.max_bytes ≤ total + b.size_bytes
            ∨ cfg.max_batches ≤ ring.length + 1
          · rw [consume_admit_stop cfg b rest ring total d hd' hf hs hb]
            exact ⟨hub', hpw', le_refl d⟩
          · rw [consume_admit_go cfg b rest ring total d hd' hf hs hb]
            exact ih (ring ++ [(b, d)]) (total + b.size_bytes) d hub' hpw'

theorem read_some_done (cfg : log_reader_config) (st : reader_state)
    (h : st.done = true) : read_some cfg st = (.ok [], st) := by
  simp [read_some, h]

theorem read_some_err_pending (cfg : log_reader_config) (st : reader_state)
    (h1 : st.done = false) (h2 : st.err_pending = true) :
    read_some cfg st = (.error .data_corruption,
      { st with done := true, err_pending := false, ringbuf := [] }) := by
  simp [read_some, h1, h2]

theorem read_some_eos_corrupt_empty (cfg : log_reader_config)
    (st : reader_state) (h1 : st.done = false) (h2 : st.err_pending = false)
    (h3 : (consume cfg st.stream st.ringbuf st.total_size st.delta).reached_end
      = true)
    (h4 : st.corrupt = true)
    (h5 : (consume cfg st.stream st.ringbuf st.total_size st.delta).ring
      = []) :
    read_some cfg st = (.error .data_corruption,
      { st with
        stream := []
        done := true
        ringbuf := []
        total_size :=
          (consume cfg st.stream st.ringbuf st.total_size st.delta).total
        delta :=
          (consume cfg st.stream st.ringbuf st.total_size st.delta).delta })
    := by
  simp [read_some, h1, h2, h3, h4, h5]

theorem read_some_eos_corrupt_ring (cfg : log_reader_config)
    (st : reader_state) (h1 : st.done = false) (h2 : st.err_pending = false)
    (h3 : (consume cfg st.stream st.ringbuf st.total_size st.delta).reached_end
      = true)
    (h4 : st.corrupt = true)
    (h5 : ¬ (consume cfg st.stream st.ringbuf st.total_size st.delta).ring
      = []) :
    read_some cfg st =
      (.ok ((consume cfg st.stream st.ringbuf st.total_size st.delta).ring.map
          (emit cfg)),
       { st with
         stream := []
         err_pending := true
         ringbuf := []
         total_size :=
           (consume cfg st.stream st.ringbuf st.total_size st.delta).total
         delta :=
           (consume cfg st.stream st.ringbuf st.total_size st.delta).delta })
    := by
  simp [read_some, h1, h2, h3, h4, h5]

theorem read_some_eos_ok (cfg : log_reader_config)
    (st : reader_state) (h1 : st.done = false) (h2 : st.err_pending = false)
    (h3 : (consume cfg st.stream st.ringbuf st.total_size st.delta).reached_end
      = true)
    (h4 : st.corrupt = false) :
    read_some cfg st =
      (.ok ((consume cfg st.stream st.ringbuf st.total_size st.delta).ring.map
          (emit cfg)),
       { st with
         stream := []
         done := true
         ringbuf := []
         total_size :=
           (consume cfg st.stream st.ringbuf st.total_size st.delta).total
         delta :=
           (consume cfg st.stream st.ringbuf st.total_size st.delta).delta })
    := by
  simp [read_some, h1, h2, h3, h4]

theorem read_some_more (cfg : log_reader_config)
    (st : reader_state) (h1 : st.done = false) (h2 : st.err_pending = false)
    (h3 : (consume cfg st.stream st.ringbuf st.total_size st.delta).reached_end
      = false) :
    read_some cfg st =
      (.ok ((consume cfg st.stream st.ringbuf st.total_size st.delta).ring.map
          (emit cfg)),
       { st with
         stream :=
           (consume cfg st.stream st.ringbuf st.total_size st.delta).remaining
         ringbuf := []
         total_size :=
           (consume cfg st.stream st.ringbuf st.total_size st.delta).total
         delta :=
           (consume cfg st.stream st.ringbuf st.total_size st.delta).delta })
    := by
  simp [read_some, h1, h2, h3]

/-- In the physical offset space a `read_some` call keeps the ring
drained, and its output followed by the still-unread stream suffix is a
sublist of the stream it started from. -/
theorem read_some_decomp (cfg : log_reader_config) (st : reader_state)
    (hr : st.ringbuf = []) (htr : cfg.translate_offsets = false) :
    (read_some cfg st).2.ringbuf = []
    ∧ (∀ l, (read_some cfg st).1 = .ok l →
        List.Sublist (l ++ (read_some cfg st).2.stream) st.stream)
    ∧ (∀ e, (read_some cfg st).1 = .error e →
        List.Sublist (read_some cfg st).2.stream st.stream) := by
  have hemit : ∀ ps : List (record_batch × Nat),
      ps.map (emit cfg) = ps.map Prod.fst := by
    intro ps
    apply List.map_congr_left
    intro p _
    simp [emit, htr]
  by_cases h1 : st.done = true
  · rw [read_some_done cfg st h1]
    refine ⟨hr, ?_, ?_⟩
    · intro l hl
      simp at hl
      subst hl
      simp
    · intro e he
      simp at he
  · have h1' : st.done = false := by revert h1; cases st.done <;> simp
    by_cases h2 : st.err_pending = true
    · rw [read_some_err_pending cfg st h1' h2]
      refine ⟨rfl, ?_, ?_⟩
      · intro l hl
        simp at hl
      · intro e _
        simp
    · have h2' : st.err_pending = false := by
        revert h2; cases st.err_pending <;> simp
      obtain ⟨adds, ha0, ha2⟩
        := consume_ring_decomp cfg st.stream st.ringbuf st.total_size st.delta
      have ha1 : (consume cfg st.stream st.ringbuf st.total_size
          st.delta).ring = adds := by
        rw [ha0, hr]
        simp
      by_cases h3 : (consume cfg st.stream st.ringbuf st.total_size
          st.delta).reached_end = true
      · by_cases h4 : st.corrupt = true
        · by_cases h5 : (consume cfg st.stream st.ringbuf st.total_size
              st.delta).ring = []
          · rw [read_some_eos_corrupt_empty cfg st h1' h2' h3 h4 h5]
            refine ⟨rfl, ?_, ?_⟩
            · intro l hl
              simp at hl
            · intro e _
              simp
          · rw [read_some_eos_corrupt_ring cfg st h1' h2' h3 h4 h5]
            refine ⟨rfl, ?_, ?_⟩
            · intro l hl
              simp at hl
              subst hl
              rw [ha1, hemit]
              simp only [List.append_nil]
              exact List.Sublist.trans (List.sublist_append_left _ _) ha2
            · intro e he
              simp at he
        · have h4' : st.corrupt = false := by
            revert h4; cases st.corrupt <;> simp
          rw [read_some_eos_ok cfg st h1' h2' h3 h4']
          refine ⟨rfl, ?_, ?_⟩
          · intro l hl
            simp at hl
            subst hl
            rw [ha1, hemit]
            simp only [List.append_nil]
            exact List.Sublist.trans (List.sublist_append_left _ _) ha2
          · intro e he
            simp at he
      · have h3' : (consume cfg st.stream st.ringbuf st.total_size
            st.delta).reached_end = false := by
          revert h3
          cases (consume cfg st.stream st.ringbuf st.total_size
            st.delta).reached_end <;> simp
        rw [read_some_more cfg st h1' h2' h3']
        refine ⟨rfl, ?_, ?_⟩
        · intro l hl
          simp at hl
          subst hl
          rw [ha1, hemit]
          exact ha2
        · intro e he
          simp at he

/-- Claim C3 (amended): every batch emitted by `read_some` overlaps the
configured range — `config.start_offset ≤ batch.max` and
`batch.base ≤ config.max_offset` (physical offsets). The claim's
stronger sandwich `start ≤ base ≤ max ≤ max_offset` fails because the
consumer only filters batches whose max offset is below the start and
only stops once a base offset exceeds `max_offset`, so a batch
straddling either bound is still emitted. -/
theorem read_some_emitted_overlap_range (cfg : log_reader_config)
    (st : reader_state) (hr : st.ringbuf = [])
    (out : List record_batch) (st' : reader_state)
    (htr : cfg.translate_offsets = false)
    (h : read_some cfg st = (.ok out, st')) :
    ∀ b ∈ out, cfg.start_offset ≤ b.last_offset
      ∧ b.base_offset ≤ cfg.max_offset := by
  have hmem : ∀ p ∈ (consume cfg st.stream st.ringbuf st.total_size
      st.delta).ring,
      cfg.start_offset ≤ p.1.last_offset
        ∧ p.1.base_offset ≤ cfg.max_offset := by
    intro p hp
    rcases consume_ring_mem cfg st.stream st.ringbuf st.total_size st.delta
      p hp with hin | ⟨_, hb1, hb2, _, _⟩
    · rw [hr] at hin
      simp at hin
    · exact ⟨hb1, hb2⟩
  have hout : ∀ b ∈ (consume cfg st.stream st.ringbuf st.total_size
      st.delta).ring.map (emit cfg),
      cfg.start_offset ≤ b.last_offset ∧ b.base_offset ≤ cfg.max_offset := by
    intro b hb
    rw [List.mem_map] at hb
    obtain ⟨p, hp, hpe⟩ := hb
    have : emit cfg p = p.1 := by simp [emit, htr]
    rw [this] at hpe
    rw [← hpe]
    exact hmem p hp
  by_cases h1 : st.done = true
  · rw [read_some_done cfg st h1] at h
    simp only [Prod.mk.injEq, Except.ok.injEq] at h
    rw [← h.1]
    simp
  · have h1' : st.done = false := by revert h1; cases st.done <;> simp
    by_cases h2 : st.err_pending = true
    · rw [read_some_err_pending cfg st h1' h2] at h
      simp at h
    · have h2' : st.err_pending = false := by
        revert h2; cases st.err_pending <;> simp
      by_cases h3 : (consume cfg st.stream st.ringbuf st.total_size
          st.delta).reached_end = true
      · by_cases h4 : st.corrupt = true
        · by_cases h5 : (consume cfg st.stream st.ringbuf st.total_size
              st.delta).ring = []
          · rw [read_some_eos_corrupt_empty cfg st h1' h2' h3 h4 h5] at h
            simp at h
          · rw [read_some_eos_corrupt_ring cfg st h1' h2' h3 h4 h5] at h
            simp only [Prod.mk.injEq, Except.ok.injEq] at h
            rw [← h.1]
            exact hout
        · have h4' : st.corrupt = false := by
            revert h4; cases st.corrupt <;> simp
          rw [read_some_eos_ok cfg st h1' h2' h3 h4'] at h
          simp only [Prod.mk.injEq, Except.ok.injEq] at h
          rw [← h.1]
          exact hout
      · have h3' : (consume cfg st.stream st.ringbuf st.total_size
            st.delta).reached_end = false := by
          revert h3
          cases (consume cfg st.stream st.ringbuf st.total_size
            st.delta).reached_end <;> simp
        rw [read_some_more cfg st h1' h2' h3'] at h
        simp only [Prod.mk.injEq, Except.ok.injEq] at h
        rw [← h.1]
        exact hout

/-- Reader configuration [10, 15] used by the C3 counterexample. -/
def cex_cfg : log_reader_config :=
  { start_offset := 10, max_offset := 15, max_bytes := 1000000,
    max_batches := 1000, translate_offsets := false }

/-- A data batch straddling both configured bounds. -/
def cex_batch : record_batch :=
  { base_offset := 5, last_offset := 20, record_count := 3,
    size_bytes := 100, is_data := true }

/-- Fresh reader state whose stream holds only the straddling batch. -/
def cex_state : reader_state :=
  { stream := [cex_batch], corrupt := false, done := false,
    err_pending := false, ringbuf := [], total_size := 0, delta := 0,
    initial_delta := 0 }

/-- Claim C3, counterexample: with `start_offset = 10`,
`max_offset = 15`, the batch `[5, 20]` passes the consumer's filter
(its max 20 is not below 10) and its stop check (its base 5 does not
exceed 15), so it is emitted even though it violates
`start_offset ≤ base` and `max ≤ max_offset`. -/
theorem read_some_bounds_claim_false :
    (read_some cex_cfg cex_state).1 = .ok [cex_batch]
    ∧ ¬ (cex_cfg.start_offset ≤ cex_batch.base_offset
        ∧ cex_batch.last_offset ≤ cex_cfg.max_offset) :=
  ⟨rfl, by decide⟩

/-- Witness for C3 (amended) at the counterexample input. -/
theorem read_some_emitted_overlap_range_witness :
    cex_cfg.start_offset ≤ cex_batch.last_offset
    ∧ cex_batch.base_offset ≤ cex_cfg.max_offset :=
  read_some_emitted_overlap_range cex_cfg cex_state rfl [cex_batch]
    (read_some cex_cfg cex_state).2 rfl rfl cex_batch (by decide)

/-- The concatenated emissions of any number of successive `read_some`
calls form a sublist of the initial stream. -/
theorem read_trace_sublist_stream (cfg : log_reader_config)
    (htr : cfg.translate_offsets = false) :
    ∀ (n : Nat) (st : reader_state), st.ringbuf = [] →
      List.Sublist (read_trace cfg st n) st.stream := by
  intro n
  induction n with
  | zero =>
    intro st _
    simp [read_trace]
  | succ n ih =>
    intro st h
    obtain ⟨hring, hok, herr⟩ := read_some_decomp cfg st h htr
    rcases hrs : read_some cfg st with ⟨res, st'⟩
    rw [hrs] at hring hok herr
    simp only at hring hok herr
    cases res with
    | ok l =>
      have h1 : List.Sublist (l ++ st'.stream) st.stream := hok l rfl
      have h2 := ih st' hring
      have hstep : read_trace cfg st (n + 1) = l ++ read_trace cfg st' n
        := by simp [read_trace, hrs]
      rw [hstep]
      exact List.Sublist.trans (List.Sublist.append (List.Sublist.refl l) h2)
        h1
    | error e =>
      have h1 : List.Sublist st'.stream st.stream := herr e rfl
      have h2 := ih st' hring
      have hstep : read_trace cfg st (n + 1) = read_trace cfg st' n
        := by simp [read_trace, hrs]
      rw [hstep]
      exact List.Sublist.trans h2 h1

/-- Claim C4: across any number of successive `read_some` calls the
physical base offsets of the emitted batches are strictly increasing
(so in particular no batch is ever emitted twice), provided the
segment's batch stream itself is in strictly increasing base offset
order. -/
theorem read_trace_strictly_increasing (cfg : log_reader_config)
    (st : reader_state) (n : Nat) (hr : st.ringbuf = [])
    (htr : cfg.translate_offsets = false)
    (hsorted : List.Pairwise (fun a b => a.base_offset < b.base_offset)
      st.stream) :
    List.Pairwise (fun a b => a.base_offset < b.base_offset)
      (read_trace cfg st n) :=
  List.Pairwise.sublist (read_trace_sublist_stream cfg htr n st hr) hsorted

/-- Two consecutive data batches used by the C4 witness. -/
def c4_state : reader_state :=
  { stream := [{ base_offset := 11, last_offset := 12, record_count := 1,
                 size_bytes := 10, is_data := true },
               { base_offset := 13, last_offset := 14, record_count := 1,
                 size_bytes := 10, is_data := true }],
    corrupt := false, done := false, err_pending := false, ringbuf := [],
    total_size := 0, delta := 0, initial_delta := 0 }

/-- Witness for C4 at a concrete two-batch stream over three calls. -/
theorem read_trace_strictly_increasing_witness :
    List.Pairwise (fun a b => a.base_offset < b.base_offset)
      (read_trace cex_cfg c4_state 3) :=
  read_trace_strictly_increasing cex_cfg c4_state 3 rfl rfl (by decide)

/-- Claim C7: once `read_some` surfaces a fatal error, the reader is
done, its ring buffer holds nothing (in particular no partially parsed
batch — only complete batches are ever admitted and the ring is
drained), and every subsequent `read_some` call returns the empty
result without changing the state. -/
theorem read_some_error_terminal (cfg : log_reader_config)
    (st : reader_state) (e : read_error) (st' : reader_state)
    (h : read_some cfg st = (.error e, st')) :
    st'.done = true ∧ st'.ringbuf = []
    ∧ ∀ n : Nat, read_some cfg ((read_step cfg)^[n] st')
        = (.ok [], (read_step cfg)^[n] st') := by
  have hst : st'.done = true ∧ st'.ringbuf = [] := by
    by_cases h1 : st.done = true
    · rw [read_some_done cfg st h1] at h
      simp at h
    · have h1' : st.done = false := by revert h1; cases st.done <;> simp
      by_cases h2 : st.err_pending = true
      · rw [read_some_err_pending cfg st h1' h2] at h
        simp only [Prod.mk.injEq] at h
        rw [← h.2]
        exact ⟨rfl, rfl⟩
      · have h2' : st.err_pending = false := by
          revert h2; cases st.err_pending <;> simp
        by_cases h3 : (consume cfg st.stream st.ringbuf st.total_size
            st.delta).reached_end = true
        · by_cases h4 : st.corrupt = true
          · by_cases h5 : (consume cfg st.stream st.ringbuf st.total_size
                st.delta).ring = []
            · rw [read_some_eos_corrupt_empty cfg st h1' h2' h3 h4 h5] at h
              simp only [Prod.mk.injEq] at h
              rw [← h.2]
              exact ⟨rfl, rfl⟩
            · rw [read_some_eos_corrupt_ring cfg st h1' h2' h3 h4 h5] at h
              simp at h
          · have h4' : st.corrupt = false := by
              revert h4; cases st.corrupt <;> simp
            rw [read_some_eos_ok cfg st h1' h2' h3 h4'] at h
            simp at h
        · have h3' : (consume cfg st.stream st.ringbuf st.total_size
              st.delta).reached_end = false := by
            revert h3
            cases (consume cfg st.stream st.ringbuf st.total_size
              st.delta).reached_end <;> simp
          rw [read_some_more cfg st h1' h2' h3'] at h
          simp at h
  have hiter : ∀ n : Nat, (read_step cfg)^[n] st' = st' := by
    intro n
    induction n with
    | zero => rfl
    | succ n ihn =>
      rw [Function.iterate_succ_apply', ihn, read_step,
        read_some_done cfg st' hst.1]
  refine ⟨hst.1, hst.2, ?_⟩
  intro n
  rw [hiter n]
  exact read_some_done cfg st' hst.1

/-- A reader state whose stream is empty but flagged corrupt: the next
`read_some` surfaces `data_corruption`. -/
def c7_state : reader_state :=
  { stream := [], corrupt := true, done := false, err_pending := false,
    ringbuf := [], total_size := 0, delta := 0, initial_delta := 0 }

/-- The reader state right after the error is surfaced. -/
def c7_state_after : reader_state :=
  { stream := [], corrupt := true, done := true, err_pending := false,
    ringbuf := [], total_size := 0, delta := 0, initial_delta := 0 }

/-- Reader configuration used by the C7 witness. -/
def c7_cfg : log_reader_config :=
  { start_offset := 0, max_offset := 100, max_bytes := 1000,
    max_batches := 10, translate_offsets := false }

/-- Witness for C7 at a concrete corrupted stream. -/
theorem read_some_error_terminal_witness :
    (c7_state_after.done = true ∧ c7_state_after.ringbuf = [])
    ∧ read_some c7_cfg ((read_step c7_cfg)^[2] c7_state_after)
        = (.ok [], (read_step c7_cfg)^[2] c7_state_after) := by
  have h := read_some_error_terminal c7_cfg c7_state .data_corruption
    c7_state_after rfl
  exact ⟨⟨h.1, h.2.1⟩, h.2.2 2⟩

/-- Claim C8: for a logically configured reader started at the
`_initial_delta` snapshot, the emitted batches are exactly the admitted
batches translated by `logical_base = physical_base − delta_at_batch`,
every delta observed at admission lies between `_initial_delta` and the
segment's max delta, and the observed deltas are non-decreasing along
the read. -/
theorem read_some_logical_delta_bounds (cfg : log_reader_config)
    (st : reader_state) (max_delta : Nat)
    (hr : st.ringbuf = []) (hd0 : st.delta = st.initial_delta)
    (htr : cfg.translate_offsets = true)
    (h1 : st.done = false) (h2 : st.err_pending = false)
    (hc : st.corrupt = false)
    (hmax : st.initial_delta + nondata_sum st.stream ≤ max_delta) :
    ∃ pairs : List (record_batch × Nat),
      (read_some cfg st).1 = .ok (pairs.map (emit cfg))
      ∧ (∀ p ∈ pairs,
          (emit cfg p).base_offset = p.1.base_offset - (p.2 : Int)
          ∧ st.initial_delta ≤ p.2 ∧ p.2 ≤ max_delta)
      ∧ List.Pairwise (fun p q => p.2 ≤ q.2) pairs := by
  refine ⟨(consume cfg st.stream st.ringbuf st.total_size st.delta).ring,
    ?_, ?_, ?_⟩
  · by_cases h3 : (consume cfg st.stream st.ringbuf st.total_size
        st.delta).reached_end = true
    · rw [read_some_eos_ok cfg st h1 h2 h3 hc]
    · have h3' : (consume cfg st.stream st.ringbuf st.total_size
          st.delta).reached_end = false := by
        revert h3
        cases (consume cfg st.stream st.ringbuf st.total_size
          st.delta).reached_end <;> simp
      rw [read_some_more cfg st h1 h2 h3']
  · intro p hp
    rcases consume_ring_mem cfg st.stream st.ringbuf st.total_size st.delta
      p hp with hin | ⟨_, _, _, h4, h5⟩
    · rw [hr] at hin
      simp at hin
    · refine ⟨by simp [emit, htr], ?_, ?_⟩
      · rw [← hd0]
        exact h4
      · rw [hd0] at h5
        omega
  · have hub : ∀ p ∈ st.ringbuf, p.2 ≤ st.delta := by
      rw [hr]
      simp
    have hpw : List.Pairwise (fun p q => p.2 ≤ q.2) st.ringbuf := by
      rw [hr]
      exact List.Pairwise.nil
    exact (consume_delta_mono cfg st.stream st.ringbuf st.total_size
      st.delta hub hpw).2.1

/-- Logical-space reader configuration used by the C8 witness. -/
def c8_cfg : log_reader_config :=
  { start_offset := 0, max_offset := 100, max_bytes := 10000,
    max_batches := 10, translate_offsets := true }

/-- Fresh reader over one non-data and one data batch, with an initial
delta snapshot of 7. -/
def c8_state : reader_state :=
  { stream := [{ base_offset := 0, last_offset := 1, record_count := 2,
                 size_bytes := 10, is_data := false },
               { base_offset := 2, last_offset := 3, record_count := 1,
                 size_bytes := 10, is_data := true }],
    corrupt := false, done := false, err_pending := false, ringbuf := [],
    total_size := 0, delta := 7, initial_delta := 7 }

/-- Witness for C8 at a concrete stream with max delta 9. -/
theorem read_some_logical_delta_bounds_witness :
    ∃ pairs : List (record_batch × Nat),
      (read_some c8_cfg c8_state).1 = .ok (pairs.map (emit c8_cfg))
      ∧ (∀ p ∈ pairs,
          (emit c8_cfg p).base_offset = p.1.base_offset - (p.2 : Int)
          ∧ c8_state.initial_delta ≤ p.2 ∧ p.2 ≤ 9)
      ∧ List.Pairwise (fun p q => p.2 ≤ q.2) pairs :=
  read_some_logical_delta_bounds c8_cfg c8_state 9 rfl rfl rfl rfl rfl rfl
    (by decide)


/-- State of a cache entry, per the spec:
`{Downloading, Ready, Evicting}`. -/
inductive entry_state
  | downloading
  | ready
  | evicting
deriving DecidableEq, Repr

/-- Modelled from the spec: a segment cache entry — state, pin count,
size, last-access stamp, and a deferred-eviction flag (the cache
implementation is not in the sources). -/
structure cache_entry where
  st : entry_state
  pin : Nat
  size : Nat
  atime : Nat
  marked : Bool
deriving DecidableEq, Repr

/-- The segment cache: keyed entries, a logical clock used as the LRU
stamp, and the soft byte capacity. -/
structure cache_state where
  entries : List (Nat × cache_entry)
  clock : Nat
  capacity : Nat
deriving DecidableEq, Repr

def lookup_entry : List (Nat × cache_entry) → Nat → Option cache_entry
  | [], _ => none
  | p :: rest, j => if p.1 = j then some p.2 else lookup_entry rest j

def update_entry (l : List (Nat × cache_entry)) (j : Nat)
    (e : cache_entry) : List (Nat × cache_entry) :=
  l.map (fun p => if p.1 = j then (j, e) else p)

def remove_entry (l : List (Nat × cache_entry)) (j : Nat) :
    List (Nat × cache_entry) :=
  l.filter (fun p => p.1 != j)

/-- `e` is least recently used among the unpinned Ready entries. -/
def is_lru (l : List (Nat × cache_entry)) (e : cache_entry) : Prop :=
  ∀ p ∈ l, p.2.st = .ready → p.2.pin = 0 → e.atime ≤ p.2.atime

instance (l : List (Nat × cache_entry)) (e : cache_entry) :
    Decidable (is_lru l e) :=
  List.decidableBAll _ l

/-- Modelled from the spec: the operations mutating the cache state.
`reserve` registers a Downloading entry for a producer (pinning it),
`pin_ready` pins a Ready entry (a `reserve_or_wait` hit or a waiter
waking after `publish`), `publish`/`abandon` resolve a producer's
download, `release` drops a pin (removing an entry marked for deferred
eviction when the pin count reaches zero), `mark` flags an entry for
deferred eviction, and eviction marks the LRU unpinned Ready entry
Evicting (`evict_mark`) before unlinking it (`evict_remove`). -/
inductive cache_op
  | reserve (k size : Nat)
  | pin_ready (k : Nat)
  | publish (k size : Nat)
  | abandon (k : Nat)
  | release (k : Nat)
  | mark (k : Nat)
  | evict_mark (k : Nat)
  | evict_remove (k : Nat)
deriving DecidableEq, Repr

/-- Modelled from the spec: the effect of one cache operation; an
operation whose precondition does not hold leaves the state unchanged. -/
def apply_op (c : cache_state) (op : cache_op) : cache_state :=
  match op with
  | .reserve k size =>
    match lookup_entry c.entries k with
    | some _ => c
    | none =>
      { c with
        entries := (k, ⟨.downloading, 1, size, c.clock, false⟩) :: c.entries
        clock := c.clock + 1 }
  | .pin_ready k =>
    match lookup_entry c.entries k with
    | some e =>
      if e.st = .ready then
        { c with
          entries := update_entry c.entries k
            { e with pin := e.pin + 1, atime := c.clock }
          clock := c.clock + 1 }
      else c
    | none => c
  | .publish k size =>
    match lookup_entry c.entries k with
    | some e =>
      if e.st = .downloading then
        { c with
          entries := update_entry c.entries k
            { e with st := .ready, size := size } }
      else c
    | none => c
  | .abandon k =>
    match lookup_entry c.entries k with
    | some e =>
      if e.st = .downloading then
        { c with entries := remove_entry c.entries k }
      else c
    | none => c
  | .release k =>
    match lookup_entry c.entries k with
    | some e =>
      if 0 < e.pin then
        if e.pin = 1 ∧ e.marked = true then
          { c with entries := remove_entry c.entries k }
        else
          { c with
            entries := update_entry c.entries k { e with pin := e.pin - 1 } }
      else c
    | none => c
  | .mark k =>
    match lookup_entry c.entries k with
    | some e =>
      { c with entries := update_entry c.entries k { e with marked := true } }
    | none => c
  | .evict_mark k =>
    match lookup_entry c.entries k with
    | some e =>
      if e.st = .ready ∧ e.pin = 0 ∧ is_lru c.entries e then
        { c with
          entries := update_entry c.entries k { e with st := .evicting } }
      else c
    | none => c
  | .evict_remove k =>
    match lookup_entry c.entries k with
    | some e =>
      if e.st = .evicting then
        { c with entries := remove_entry c.entries k }
      else c
    | none => c

/-- The empty cache of the given capacity. -/
def cache_init (capacity : Nat) : cache_state := ⟨[], 0, capacity⟩

/-- The cache state after a sequence of operations from empty. -/
def cache_run (capacity : Nat) (ops : List cache_op) : cache_state :=
  ops.foldl apply_op (cache_init capacity)

theorem lookup_update_self (l : List (Nat × cache_entry)) (j : Nat)
    (e' : cache_entry) :
    lookup_entry (update_entry l j e') j
      = Option.map (fun _ => e') (lookup_entry l j) := by
  induction l with
  | nil => rfl
  | cons p rest ih =>
    by_cases hp : p.1 = j
    · simp [update_entry, lookup_entry, hp]
    · simp only [update_entry, List.map_cons] at *
      rw [if_neg hp]
      simp only [lookup_entry]
      rw [if_neg hp, if_neg hp]
      exact ih

theorem lookup_update_other (l : List (Nat × cache_entry)) (j : Nat)
    (e' : cache_entry) (k : Nat) (h : ¬ k = j) :
    lookup_entry (update_entry l j e') k = lookup_entry l k := by
  induction l with
  | nil => rfl
  | cons p rest ih =>
    by_cases hp : p.1 = j
    · have hjk : ¬ j = k := fun hh => h hh.symm
      simp only [update_entry, List.map_cons, if_pos hp]
      simp only [lookup_entry]
      rw [if_neg hjk]
      have hpk : ¬ p.1 = k := by rw [hp]; exact hjk
      rw [if_neg hpk]
      exact ih
    · simp only [update_entry, List.map_cons, if_neg hp]
      simp only [lookup_entry]
      by_cases hpk : p.1 = k
      · rw [if_pos hpk, if_pos hpk]
      · rw [if_neg hpk, if_neg hpk]
        exact ih

theorem lookup_remove_self (l : List (Nat × cache_entry)) (j : Nat) :
    lookup_entry (remove_entry l j) j = none := by
  induction l with
  | nil => rfl
  | cons p rest ih =>
    by_cases hp : p.1 = j
    · simp [remove_entry, hp] at *
      exact ih
    · simp only [remove_entry, List.filter_cons] at *
      have : (p.1 != j) = true := by
        simp [bne]
        exact hp
      rw [this]
      simp only [lookup_entry]
      rw [if_neg hp]
      exact ih

theorem lookup_remove_other (l : List (Nat × cache_entry)) (j k : Nat)
    (h : ¬ k = j) :
    lookup_entry (remove_entry l j) k = lookup_entry l k := by
  induction l with
  | nil => rfl
  | cons p rest ih =>
    by_cases hp : p.1 = j
    · simp only [remove_entry, List.filter_cons] at *
      have hb : (p.1 != j) = false := by simp [bne, hp]
      rw [hb]
      simp only [lookup_entry]
      have hpk : ¬ p.1 = k := by
        rw [hp]
        exact fun hh => h hh.symm
      rw [if_neg hpk]
      exact ih
    · simp only [remove_entry, List.filter_cons] at *
      have hb : (p.1 != j) = true := by
        simp [bne]
        exact hp
      rw [hb]
      simp only [lookup_entry]
      by_cases hpk : p.1 = k
      · rw [if_pos hpk, if_pos hpk]
      · rw [if_neg hpk, if_neg hpk]
        exact ih

/-- The C6 invariant on the entry table: a pinned entry is never in the
Evicting state. -/
def pinned_not_evicting (l : List (Nat × cache_entry)) : Prop :=
  ∀ k e, lookup_entry l k = some e → 0 < e.pin → e.st ≠ .evicting

theorem pne_update (l : List (Nat × cache_entry)) (j : Nat)
    (e' : cache_entry) (hP : pinned_not_evicting l)
    (he : 0 < e'.pin → e'.st ≠ .evicting) :
    pinned_not_evicting (update_entry l j e') := by
  intro k e hk hpin
  by_cases hkj : k = j
  · subst hkj
    rw [lookup_update_self] at hk
    cases hl : lookup_entry l k with
    | none => rw [hl] at hk; simp at hk
    | some e0 =>
      rw [hl] at hk
      simp at hk
      rw [← hk]
      exact he (hk ▸ hpin)
  · rw [lookup_update_other l j e' k hkj] at hk
    exact hP k e hk hpin

theorem pne_remove (l : List (Nat × cache_entry)) (j : Nat)
    (hP : pinned_not_evicting l) :
    pinned_not_evicting (remove_entry l j) := by
  intro k e hk hpin
  by_cases hkj : k = j
  · subst hkj
    rw [lookup_remove_self] at hk
    simp at hk
  · rw [lookup_remove_other l j k hkj] at hk
    exact hP k e hk hpin

theorem pne_apply_op (c : cache_state) (op : cache_op)
    (hP : pinned_not_evicting c.entries) :
    pinned_not_evicting (apply_op c op).entries := by
  cases op with
  | reserve k size =>
    cases hl : lookup_entry c.entries k with
    | some e => simpa [apply_op, hl] using hP
    | none =>
      simp only [apply_op, hl]
      intro k' e' hk' hpin'
      simp only [lookup_entry] at hk'
      by_cases hkk : k = k'
      · rw [if_pos hkk] at hk'
        simp at hk'
        rw [← hk']
        simp
      · rw [if_neg hkk] at hk'
        exact hP k' e' hk' hpin'
  | pin_ready k =>
    cases hl : lookup_entry c.entries k with
    | some e =>
      by_cases he : e.st = .ready
      · simp only [apply_op, hl, if_pos he]
        exact pne_update _ _ _ hP (fun _ => by simp [he])
      · simpa [apply_op, hl, he] using hP
    | none => simpa [apply_op, hl] using hP
  | publish k size =>
    cases hl : lookup_entry c.entries k with
    | some e =>
      by_cases he : e.st = .downloading
      · simp only [apply_op, hl, if_pos he]
        exact pne_update _ _ _ hP (fun _ => by simp)
      · simpa [apply_op, hl, he] using hP
    | none => simpa [apply_op, hl] using hP
  | abandon k =>
    cases hl : lookup_entry c.entries k with
    | some e =>
      by_cases he : e.st = .downloading
      · simp only [apply_op, hl, if_pos he]
        exact pne_remove _ _ hP
      · simpa [apply_op, hl, he] using hP
    | none => simpa [apply_op, hl] using hP
  | release k =>
    cases hl : lookup_entry c.entries k with
    | some e =>
      by_cases hp0 : 0 < e.pin
      · by_cases hm : e.pin = 1 ∧ e.marked = true
        · simp only [apply_op, hl, if_pos hp0, if_pos hm]
          exact pne_remove _ _ hP
        · simp only [apply_op, hl, if_pos hp0, if_neg hm]
          exact pne_update _ _ _ hP
            (fun hpin => hP k e hl (by omega))
      · simpa [apply_op, hl, hp0] using hP
    | none => simpa [apply_op, hl] using hP
  | mark k =>
    cases hl : lookup_entry c.entries k with
    | some e =>
      simp only [apply_op, hl]
      exact pne_update _ _ _ hP (fun hpin => hP k e hl hpin)
    | none => simpa [apply_op, hl] using hP
  | evict_mark k =>
    cases hl : lookup_entry c.entries k with
    | some e =>
      by_cases he : e.st = .ready ∧ e.pin = 0 ∧ is_lru c.entries e
      · simp only [apply_op, hl, if_pos he]
        exact pne_update _ _ _ hP (fun hpin => by simp [he.2.1] at hpin)
      · simpa [apply_op, hl, he] using hP
    | none => simpa [apply_op, hl] using hP
  | evict_remove k =>
    cases hl : lookup_entry c.entries k with
    | some e =>
      by_cases he : e.st = .evicting
      · simp only [apply_op, hl, if_pos he]
        exact pne_remove _ _ hP
      · simpa [apply_op, hl, he] using hP
    | none => simpa [apply_op, hl] using hP

theorem pne_cache_run (capacity : Nat) (ops : List cache_op) :
    pinned_not_evicting (cache_run capacity ops).entries := by
  suffices h : ∀ (ops : List cache_op) (c : cache_state),
      pinned_not_evicting c.entries →
      pinned_not_evicting (ops.foldl apply_op c).entries by
    exact h ops (cache_init capacity) (fun k e hk => by
      simp [cache_init, lookup_entry] at hk)
  intro ops
  induction ops with
  | nil => intro c hc; exact hc
  | cons op rest ih =>
    intro c hc
    exact ih (apply_op c op) (pne_apply_op c op hc)

/-- A pinned Ready entry survives any single cache operation that is
not the release of its last pin: it stays present, Ready and pinned. -/
theorem pinned_ready_survives (c : cache_state) (op : cache_op)
    (k : Nat) (e : cache_entry)
    (hk : lookup_entry c.entries k = some e)
    (hready : e.st = .ready) (hpin : 0 < e.pin)
    (hrel : op = .release k → 1 < e.pin) :
    ∃ e', lookup_entry (apply_op c op).entries k = some e'
      ∧ e'.st = .ready ∧ 0 < e'.pin := by
  cases op with
  | reserve j size =>
    cases hl : lookup_entry c.entries j with
    | some e0 => exact ⟨e, by simpa [apply_op, hl] using hk, hready, hpin⟩
    | none =>
      refine ⟨e, ?_, hready, hpin⟩
      simp only [apply_op, hl]
      simp only [lookup_entry]
      have hjk : ¬ j = k := by
        intro hh
        rw [hh] at hl
        rw [hl] at hk
        simp at hk
      rw [if_neg hjk]
      exact hk
  | pin_ready j =>
    by_cases hjk : j = k
    · subst hjk
      refine ⟨{ e with pin := e.pin + 1, atime := c.clock }, ?_, hready,
        Nat.succ_pos e.pin⟩
      simp only [apply_op, hk, if_pos hready]
      rw [lookup_update_self, hk]
      rfl
    · cases hl : lookup_entry c.entries j with
      | some e0 =>
        by_cases he0 : e0.st = .ready
        · refine ⟨e, ?_, hready, hpin⟩
          simp only [apply_op, hl, if_pos he0]
          rw [lookup_update_other _ _ _ k (fun hh => hjk hh.symm)]
          exact hk
        · exact ⟨e, by simpa [apply_op, hl, he0] using hk, hready, hpin⟩
      | none => exact ⟨e, by simpa [apply_op, hl] using hk, hready, hpin⟩
  | publish j size =>
    by_cases hjk : j = k
    · subst hjk
      have : ¬ e.st = .downloading := by rw [hready]; intro hh; cases hh
      exact ⟨e, by simp [apply_op, hk, this], hready, hpin⟩
    · cases hl : lookup_entry c.entries j with
      | some e0 =>
        by_cases he0 : e0.st = .downloading
        · refine ⟨e, ?_, hready, hpin⟩
          simp only [apply_op, hl, if_pos he0]
          rw [lookup_update_other _ _ _ k (fun hh => hjk hh.symm)]
          exact hk
        · exact ⟨e, by simpa [apply_op, hl, he0] using hk, hready, hpin⟩
      | none => exact ⟨e, by simpa [apply_op, hl] using hk, hready, hpin⟩
  | abandon j =>
    by_cases hjk : j = k
    · subst hjk
      have : ¬ e.st = .downloading := by rw [hready]; intro hh; cases hh
      exact ⟨e, by simp [apply_op, hk, this], hready, hpin⟩
    · cases hl : lookup_entry c.entries j with
      | some e0 =>
        by_cases he0 : e0.st = .downloading
        · refine ⟨e, ?_, hready, hpin⟩
          simp only [apply_op, hl, if_pos he0]
          rw [lookup_remove_other _ _ k (fun hh => hjk hh.symm)]
          exact hk
        · exact ⟨e, by simpa [apply_op, hl, he0] using hk, hready, hpin⟩
      | none => exact ⟨e, by simpa [apply_op, hl] using hk, hready, hpin⟩
  | release j =>
    by_cases hjk : j = k
    · subst hjk
      have hgt : 1 < e.pin := hrel rfl
      have hm : ¬ (e.pin = 1 ∧ e.marked = true) := by
        intro hh
        omega
      refine ⟨{ e with pin := e.pin - 1 }, ?_, hready,
        by show 0 < e.pin - 1; omega⟩
      simp only [apply_op, hk, if_pos (by omega : 0 < e.pin), if_neg hm]
      rw [lookup_update_self, hk]
      rfl
    · cases hl : lookup_entry c.entries j with
      | some e0 =>
        by_cases hp0 : 0 < e0.pin
        · by_cases hm : e0.pin = 1 ∧ e0.marked = true
          · refine ⟨e, ?_, hready, hpin⟩
            simp only [apply_op, hl, if_pos hp0, if_pos hm]
            rw [lookup_remove_other _ _ k (fun hh => hjk hh.symm)]
            exact hk
          · refine ⟨e, ?_, hready, hpin⟩
            simp only [apply_op, hl, if_pos hp0, if_neg hm]
            rw [lookup_update_other _ _ _ k (fun hh => hjk hh.symm)]
            exact hk
        · exact ⟨e, by simpa [apply_op, hl, hp0] using hk, hready, hpin⟩
      | none => exact ⟨e, by simpa [apply_op, hl] using hk, hready, hpin⟩
  | mark j =>
    by_cases hjk : j = k
    · subst hjk
      refine ⟨{ e with marked := true }, ?_, hready, hpin⟩
      simp only [apply_op, hk]
      rw [lookup_update_self, hk]
      rfl
    · cases hl : lookup_entry c.entries j with
      | some e0 =>
        refine ⟨e, ?_, hready, hpin⟩
        simp only [apply_op, hl]
        rw [lookup_update_other _ _ _ k (fun hh => hjk hh.symm)]
        exact hk
      | none => exact ⟨e, by simpa [apply_op, hl] using hk, hready, hpin⟩
  | evict_mark j =>
    by_cases hjk : j = k
    · subst hjk
      have : ¬ (e.st = .ready ∧ e.pin = 0 ∧ is_lru c.entries e) := by
        intro hh
        omega
      exact ⟨e, by simp [apply_op, hk, this], hready, hpin⟩
    · cases hl : lookup_entry c.entries j with
      | some e0 =>
        by_cases he0 : e0.st = .ready ∧ e0.pin = 0 ∧ is_lru c.entries e0
        · refine ⟨e, ?_, hready, hpin⟩
          simp only [apply_op, hl, if_pos he0]
          rw [lookup_update_other _ _ _ k (fun hh => hjk hh.symm)]
          exact hk
        · exact ⟨e, by simpa [apply_op, hl, he0] using hk, hready, hpin⟩
      | none => exact ⟨e, by simpa [apply_op, hl] using hk, hready, hpin⟩
  | evict_remove j =>
    by_cases hjk : j = k
    · subst hjk
      have : ¬ e.st = .evicting := by rw [hready]; intro hh; cases hh
      exact ⟨e, by simp [apply_op, hk, this], hready, hpin⟩
    · cases hl : lookup_entry c.entries j with
      | some e0 =>
        by_cases he0 : e0.st = .evicting
        · refine ⟨e, ?_, hready, hpin⟩
          simp only [apply_op, hl, if_pos he0]
          rw [lookup_remove_other _ _ k (fun hh => hjk hh.symm)]
          exact hk
        · exact ⟨e, by simpa [apply_op, hl, he0] using hk, hready, hpin⟩
      | none => exact ⟨e, by simpa [apply_op, hl] using hk, hready, hpin⟩

/-- Claim C6: in every cache state reachable from the empty cache, a
pinned entry is never in the Evicting state, and a pinned Ready entry
survives any further operation that is not the release of its last pin
— present, Ready and still pinned, so its file is never removed; only
once release drops the pin count to zero does it become evictable. -/
theorem cache_pinned_entry_protected (capacity : Nat)
    (ops : List cache_op) (op : cache_op) (k : Nat) (e : cache_entry)
    (hk : lookup_entry (cache_run capacity ops).entries k = some e)
    (hpin : 0 < e.pin) :
    e.st ≠ .evicting
    ∧ (e.st = .ready → (op = .release k → 1 < e.pin) →
        ∃ e', lookup_entry
            (apply_op (cache_run capacity ops) op).entries k = some e'
          ∧ e'.st = .ready ∧ 0 < e'.pin) :=
  ⟨pne_cache_run capacity ops k e hk hpin,
   fun hready hrel =>
     pinned_ready_survives (cache_run capacity ops) op k e hk hready hpin
       hrel⟩

/-- Operation sequence producing one Ready entry pinned twice. -/
def c6_ops : List cache_op :=
  [.reserve 1 10, .publish 1 10, .pin_ready 1]

/-- Witness for C6: a doubly pinned Ready entry is protected against a
concurrent eviction attempt. -/
theorem cache_pinned_entry_protected_witness :
    cache_entry.st ⟨.ready, 2, 10, 1, false⟩ ≠ .evicting
    ∧ (cache_entry.st ⟨.ready, 2, 10, 1, false⟩ = .ready →
        (cache_op.evict_mark 1 = .release 1 →
          1 < cache_entry.pin ⟨.ready, 2, 10, 1, false⟩) →
        ∃ e', lookup_entry
            (apply_op (cache_run 100 c6_ops) (.evict_mark 1)).entries 1
            = some e'
          ∧ e'.st = .ready ∧ 0 < e'.pin) :=
  cache_pinned_entry_protected 100 c6_ops (.evict_mark 1) 1
    ⟨.ready, 2, 10, 1, false⟩ (by decide) (by decide)


/-- System state seen by `remote_segment::hydrate`: the shard's cache
and the number of object-store GETs issued so far. -/
structure hyd_state where
  cache : cache_state
  gets : Nat
deriving DecidableEq, Repr

/-- Modelled from the spec: `remote_segment::hydrate` for a single
sequential caller (its implementation is not in the sources). The cache
key resolves to the segment's path. A Ready entry is pinned and its
path returned; an absent entry makes this caller the producer: it
issues the object-store GET, publishes the entry (the producer's
reserve guard already pins it) and returns the path. A key currently
Downloading or Evicting would suspend, which a sequential single caller
cannot resolve, so it is not represented (`none`). -/
def hydrate (k size : Nat) (s : hyd_state) : Option (Nat × hyd_state) :=
  match lookup_entry s.cache.entries k with
  | some e =>
    if e.st = .ready then
      some (k, { s with cache := apply_op s.cache (.pin_ready k) })
    else none
  | none =>
    some (k,
      { cache := apply_op (apply_op s.cache (.reserve k size))
          (.publish k size)
        gets := s.gets + 1 })

/-- Claim C5: `hydrate` is idempotent — after a successful `hydrate`,
a second call succeeds with the same path, issues no additional
object-store GET, and pins the same Ready cache entry once more. -/
theorem hydrate_idempotent (k size : Nat) (s : hyd_state)
    (p : Nat) (s1 : hyd_state) (h : hydrate k size s = some (p, s1)) :
    ∃ s2 e1 e2,
      hydrate k size s1 = some (p, s2)
      ∧ s2.gets = s1.gets
      ∧ lookup_entry s1.cache.entries k = some e1
      ∧ lookup_entry s2.cache.entries k = some e2
      ∧ e1.st = .ready ∧ e2.st = .ready
      ∧ e2.pin = e1.pin + 1 := by
  have hstep : p = k ∧ ∃ e1, lookup_entry s1.cache.entries k = some e1
      ∧ e1.st = .ready := by
    cases hl : lookup_entry s.cache.entries k with
    | some e =>
      by_cases he : e.st = .ready
      · simp only [hydrate, hl] at h
        rw [if_pos he] at h
        simp only [Option.some.injEq, Prod.mk.injEq] at h
        refine ⟨h.1.symm, { e with pin := e.pin + 1, atime := s.cache.clock },
          ?_, he⟩
        rw [← h.2]
        simp only [apply_op, hl, if_pos he]
        rw [lookup_update_self, hl]
        rfl
      · simp only [hydrate, hl] at h
        rw [if_neg he] at h
        simp at h
    | none =>
      simp only [hydrate, hl] at h
      simp only [Option.some.injEq, Prod.mk.injEq] at h
      refine ⟨h.1.symm, ⟨.ready, 1, size, s.cache.clock, false⟩, ?_, rfl⟩
      rw [← h.2]
      have hres : apply_op s.cache (.reserve k size)
          = { s.cache with
              entries := (k, ⟨.downloading, 1, size, s.cache.clock, false⟩)
                :: s.cache.entries
              clock := s.cache.clock + 1 } := by
        simp [apply_op, hl]
      rw [hres]
      have hlk : lookup_entry
          ((k, (⟨.downloading, 1, size, s.cache.clock, false⟩ : cache_entry))
            :: s.cache.entries) k
          = some ⟨.downloading, 1, size, s.cache.clock, false⟩ := by
        simp [lookup_entry]
      simp only [apply_op, hlk]
      rw [if_pos True.intro]
      rw [lookup_update_self, hlk]
      rfl
  obtain ⟨hp, e1, he1, hs1⟩ := hstep
  subst hp
  refine ⟨{ s1 with cache := apply_op s1.cache (.pin_ready p) },
    e1, { e1 with pin := e1.pin + 1, atime := s1.cache.clock },
    ?_, rfl, he1, ?_, hs1, hs1, rfl⟩
  · simp only [hydrate, he1]
    rw [if_pos hs1]
  · simp only [apply_op, he1, if_pos hs1]
    rw [lookup_update_self, he1]
    rfl

/-- Witness for C5: hydrating a fresh key then hydrating it again. -/
theorem hydrate_idempotent_witness :
    ∃ s2 e1 e2,
      hydrate 5 10 ⟨⟨[(5, ⟨.ready, 1, 10, 0, false⟩)], 1, 100⟩, 1⟩
        = some (5, s2)
      ∧ s2.gets = (⟨⟨[(5, ⟨.ready, 1, 10, 0, false⟩)], 1, 100⟩, 1⟩ :
          hyd_state).gets
      ∧ lookup_entry [(5, ⟨.ready, 1, 10, 0, false⟩)] 5 = some e1
      ∧ lookup_entry s2.cache.entries 5 = some e2
      ∧ e1.st = .ready ∧ e2.st = .ready
      ∧ e2.pin = e1.pin + 1 :=
  hydrate_idempotent 5 10 ⟨⟨[], 0, 100⟩, 0⟩ 5
    ⟨⟨[(5, ⟨.ready, 1, 10, 0, false⟩)], 1, 100⟩, 1⟩ rfl


/-- Per-caller phase during concurrent hydration of one key: about to
call `reserve_or_wait`, producing (owns the download), waiting on the
Downloading entry, or returned. -/
inductive pstate
  | start
  | producing
  | waiting
  | done
deriving DecidableEq, Repr

/-- Coarse state of the shared cache key during concurrent hydration. -/
inductive kstate
  | absent
  | downloading
  | ready
deriving DecidableEq, Repr

/-- Global state of N concurrent `hydrate` calls on one key: each
caller's phase, the key's cache state, and the number of object-store
GETs issued. -/
structure hcstate where
  procs : List pstate
  key : kstate
  gets : Nat
deriving DecidableEq, Repr

/-- N callers about to hydrate a key the cache does not hold. -/
def hyd_init (n : Nat) : hcstate := ⟨List.replicate n .start, .absent, 0⟩

/-- Modelled from the spec: the cooperative interleaving of concurrent
`hydrate` calls collapsed through the cache's Downloading state
(implementation not in the sources). Atomic steps are the code between
suspension points: `reserve` registers the Downloading entry and issues
the GET (making the caller the producer), `enqueue` suspends a caller
on the Downloading entry, `hit` pins an already Ready entry, `finish`
completes the producer's download and publishes Ready, and `wake`
resumes a waiter after the Ready transition. -/
inductive hstep : hcstate → hcstate → Prop
  | reserve (s : hcstate) (i : Nat)
      (hp : s.procs[i]? = some .start) (hk : s.key = .absent) :
      hstep s ⟨s.procs.set i .producing, .downloading, s.gets + 1⟩
  | enqueue (s : hcstate) (i : Nat)
      (hp : s.procs[i]? = some .start) (hk : s.key = .downloading) :
      hstep s ⟨s.procs.set i .waiting, .downloading, s.gets⟩
  | hit (s : hcstate) (i : Nat)
      (hp : s.procs[i]? = some .start) (hk : s.key = .ready) :
      hstep s ⟨s.procs.set i .done, .ready, s.gets⟩
  | finish (s : hcstate) (i : Nat)
      (hp : s.procs[i]? = some .producing) (hk : s.key = .downloading) :
      hstep s ⟨s.procs.set i .done, .ready, s.gets⟩
  | wake (s : hcstate) (i : Nat)
      (hp : s.procs[i]? = some .waiting) (hk : s.key = .ready) :
      hstep s ⟨s.procs.set i .done, .ready, s.gets⟩

/-- States reachable by any interleaving of the N concurrent calls. -/
def hyd_reachable (n : Nat) (s : hcstate) : Prop :=
  Relation.ReflTransGen hstep (hyd_init n) s

/-- Number of callers currently producing. -/
def prod_count (l : List pstate) : Nat :=
  (l.map fun p => if p = .producing then 1 else 0).sum

/-- Rank of a caller phase: how much work remains for that caller. -/
def prank : pstate → Nat
  | .start => 2
  | .producing => 1
  | .waiting => 1
  | .done => 0

/-- Progress measure: positive while any caller has not returned. -/
def hmeasure (s : hcstate) : Nat :=
  (s.procs.map prank).sum

theorem sum_map_set (f : pstate → Nat) (l : List pstate) (i : Nat)
    (a b : pstate) (h : l[i]? = some a) :
    ((l.set i b).map f).sum + f a = (l.map f).sum + f b := by
  induction l generalizing i with
  | nil => simp at h
  | cons x rest ih =>
    cases i with
    | zero =>
      simp only [List.getElem?_cons_zero, Option.some.injEq] at h
      subst h
      simp only [List.set_cons_zero, List.map_cons, List.sum_cons]
      omega
    | succ i =>
      simp only [List.getElem?_cons_succ] at h
      have hih := ih i h
      simp only [List.set_cons_succ, List.map_cons, List.sum_cons]
      omega

theorem prod_count_set (l : List pstate) (i : Nat) (a b : pstate)
    (h : l[i]? = some a) :
    prod_count (l.set i b) + (if a = pstate.producing then 1 else 0)
      = prod_count l + (if b = pstate.producing then 1 else 0) :=
  sum_map_set _ l i a b h

theorem prod_count_set_keep (l : List pstate) (i : Nat) (a b : pstate)
    (h : l[i]? = some a) (ha : a ≠ pstate.producing)
    (hb : b ≠ pstate.producing) :
    prod_count (l.set i b) = prod_count l := by
  have hh := prod_count_set l i a b h
  rw [if_neg ha, if_neg hb] at hh
  omega

theorem prod_count_set_enter (l : List pstate) (i : Nat) (a : pstate)
    (h : l[i]? = some a) (ha : a ≠ pstate.producing) :
    prod_count (l.set i .producing) = prod_count l + 1 := by
  have hh := prod_count_set l i a .producing h
  rw [if_neg ha, if_pos rfl] at hh
  omega

theorem prod_count_set_leave (l : List pstate) (i : Nat) (b : pstate)
    (h : l[i]? = some pstate.producing) (hb : b ≠ pstate.producing) :
    prod_count (l.set i b) + 1 = prod_count l := by
  have hh := prod_count_set l i .producing b h
  rw [if_pos rfl, if_neg hb] at hh
  omega

theorem prod_count_all_start (l : List pstate)
    (h : ∀ p ∈ l, p = .start) : prod_count l = 0 := by
  induction l with
  | nil => rfl
  | cons x rest ih =>
    have hx : x = .start := h x (by simp)
    have hr : ∀ p ∈ rest, p = .start := fun p hp => h p (by simp [hp])
    simp only [prod_count, List.map_cons, List.sum_cons, hx] at *
    simp only [ih hr]
    simp

theorem prod_count_pos_of_get (l : List pstate) (i : Nat)
    (h : l[i]? = some .producing) : 1 ≤ prod_count l := by
  induction l generalizing i with
  | nil => simp at h
  | cons x rest ih =>
    cases i with
    | zero =>
      simp only [List.getElem?_cons_zero, Option.some.injEq] at h
      simp [prod_count, ← h]
    | succ i =>
      simp only [List.getElem?_cons_succ] at h
      have := ih i h
      simp only [prod_count, List.map_cons, List.sum_cons] at *
      omega

theorem exists_producing_of_count_pos (l : List pstate)
    (h : 1 ≤ prod_count l) : ∃ i : Nat, l[i]? = some pstate.producing := by
  induction l with
  | nil => simp [prod_count] at h
  | cons x rest ih =>
    by_cases hx : x = .producing
    · exact ⟨0, by simp [hx]⟩
    · have hc : prod_count rest = prod_count (x :: rest) := by
        simp [prod_count, hx]
      obtain ⟨i, hi⟩ := ih (by omega)
      exact ⟨i + 1, by simpa using hi⟩

theorem mem_get_idx {a : pstate} {l : List pstate} (h : a ∈ l) :
    ∃ i : Nat, l[i]? = some a := by
  induction l with
  | nil => simp at h
  | cons x rest ih =>
    rcases List.mem_cons.mp h with h | h
    · exact ⟨0, by simp [h]⟩
    · obtain ⟨i, hi⟩ := ih h
      exact ⟨i + 1, by simpa using hi⟩

theorem get_idx_mem {a : pstate} {l : List pstate} {i : Nat}
    (h : l[i]? = some a) : a ∈ l := by
  induction l generalizing i with
  | nil => simp at h
  | cons x rest ih =>
    cases i with
    | zero =>
      simp only [List.getElem?_cons_zero, Option.some.injEq] at h
      simp [h]
    | succ i =>
      simp only [List.getElem?_cons_succ] at h
      simp [ih h]

/-- The C1 invariant tying the key state, the GET counter and the
number of producers together. -/
def hyd_inv (s : hcstate) : Prop :=
  match s.key with
  | .absent => s.gets = 0 ∧ ∀ p ∈ s.procs, p = .start
  | .downloading => s.gets = 1 ∧ prod_count s.procs = 1
  | .ready => s.gets = 1 ∧ prod_count s.procs = 0

theorem hyd_inv_init (n : Nat) : hyd_inv (hyd_init n) :=
  ⟨rfl, fun _ hp => List.eq_of_mem_replicate hp⟩

theorem hyd_inv_step {s s' : hcstate} (h : hstep s s')
    (hi : hyd_inv s) : hyd_inv s' := by
  cases h with
  | reserve i hp hk =>
    simp only [hyd_inv, hk] at hi
    obtain ⟨hg, hall⟩ := hi
    simp only [hyd_inv]
    have h0 : prod_count s.procs = 0 := prod_count_all_start s.procs hall
    have hset := prod_count_set_enter s.procs i .start hp (by decide)
    exact ⟨by omega, by omega⟩
  | enqueue i hp hk =>
    simp only [hyd_inv, hk] at hi
    obtain ⟨hg, hc⟩ := hi
    simp only [hyd_inv]
    have hset := prod_count_set_keep s.procs i .start .waiting hp
      (by decide) (by decide)
    exact ⟨hg, by omega⟩
  | hit i hp hk =>
    simp only [hyd_inv, hk] at hi
    obtain ⟨hg, hc⟩ := hi
    simp only [hyd_inv]
    have hset := prod_count_set_keep s.procs i .start .done hp
      (by decide) (by decide)
    exact ⟨hg, by omega⟩
  | finish i hp hk =>
    simp only [hyd_inv, hk] at hi
    obtain ⟨hg, hc⟩ := hi
    simp only [hyd_inv]
    have hset := prod_count_set_leave s.procs i .done hp (by decide)
    exact ⟨hg, by omega⟩
  | wake i hp hk =>
    simp only [hyd_inv, hk] at hi
    obtain ⟨hg, hc⟩ := hi
    simp only [hyd_inv]
    have hset := prod_count_set_keep s.procs i .waiting .done hp
      (by decide) (by decide)
    exact ⟨hg, by omega⟩

theorem hyd_step_length {s s' : hcstate} (h : hstep s s') :
    s'.procs.length = s.procs.length := by
  cases h <;> simp

theorem hyd_reachable_inv (n : Nat) (s : hcstate)
    (hr : hyd_reachable n s) : hyd_inv s ∧ s.procs.length = n := by
  induction hr with
  | refl => exact ⟨hyd_inv_init n, by simp [hyd_init]⟩
  | tail hab hbc ih =>
    exact ⟨hyd_inv_step hbc ih.1, (hyd_step_length hbc).trans ih.2⟩

theorem hyd_step_decreases {s s' : hcstate} (h : hstep s s') :
    hmeasure s' < hmeasure s := by
  cases h with
  | reserve i hp hk =>
    have hset := sum_map_set prank s.procs i .start .producing hp
    simp only [prank] at hset
    simp only [hmeasure]
    omega
  | enqueue i hp hk =>
    have hset := sum_map_set prank s.procs i .start .waiting hp
    simp only [prank] at hset
    simp only [hmeasure]
    omega
  | hit i hp hk =>
    have hset := sum_map_set prank s.procs i .start .done hp
    simp only [prank] at hset
    simp only [hmeasure]
    omega
  | finish i hp hk =>
    have hset := sum_map_set prank s.procs i .producing .done hp
    simp only [prank] at hset
    simp only [hmeasure]
    omega
  | wake i hp hk =>
    have hset := sum_map_set prank s.procs i .waiting .done hp
    simp only [prank] at hset
    simp only [hmeasure]
    omega

theorem hyd_progress {s : hcstate} (hi : hyd_inv s)
    (h : ∃ p ∈ s.procs, p ≠ .done) : ∃ s', hstep s s' := by
  obtain ⟨p, hp, hpd⟩ := h
  obtain ⟨i, hgi⟩ := mem_get_idx hp
  cases hk : s.key with
  | absent =>
    simp only [hyd_inv, hk] at hi
    have hps : p = .start := hi.2 p hp
    subst hps
    exact ⟨_, hstep.reserve s i hgi hk⟩
  | downloading =>
    simp only [hyd_inv, hk] at hi
    cases p with
    | start => exact ⟨_, hstep.enqueue s i hgi hk⟩
    | producing => exact ⟨_, hstep.finish s i hgi hk⟩
    | waiting =>
      obtain ⟨j, hj⟩ := exists_producing_of_count_pos s.procs (by omega)
      exact ⟨_, hstep.finish s j hj hk⟩
    | done => exact absurd rfl hpd
  | ready =>
    simp only [hyd_inv, hk] at hi
    cases p with
    | start => exact ⟨_, hstep.hit s i hgi hk⟩
    | producing =>
      have := prod_count_pos_of_get s.procs i hgi
      omega
    | waiting => exact ⟨_, hstep.wake s i hgi hk⟩
    | done => exact absurd rfl hpd

/-- Claim C1: for any interleaving of N concurrent `hydrate` calls on
the same key, at most one object-store GET is ever issued; every step
decreases the progress measure, so every maximal run is finite; a state
with an unfinished caller always has a next step (waiters are never
stuck: the producer can finish, and Ready wakes them); and when no step
remains every caller has returned and exactly one GET was issued. -/
theorem hydrate_concurrent_single_get (n : Nat) (hn : 0 < n)
    (s : hcstate) (hr : hyd_reachable n s) :
    s.gets ≤ 1
    ∧ (∀ s', hstep s s' → hmeasure s' < hmeasure s)
    ∧ ((∃ p ∈ s.procs, p ≠ .done) → ∃ s', hstep s s')
    ∧ ((¬ ∃ s', hstep s s') →
        s.gets = 1 ∧ ∀ p ∈ s.procs, p = .done) := by
  obtain ⟨hi, hlen⟩ := hyd_reachable_inv n s hr
  have hget : s.gets ≤ 1 := by
    cases hk : s.key with
    | absent =>
      simp only [hyd_inv, hk] at hi
      omega
    | downloading =>
      simp only [hyd_inv, hk] at hi
      omega
    | ready =>
      simp only [hyd_inv, hk] at hi
      omega
  refine ⟨hget, fun s' h => hyd_step_decreases h, hyd_progress hi, ?_⟩
  intro hterm
  have hall : ∀ p ∈ s.procs, p = .done := by
    intro p hp
    by_contra hpd
    exact hterm (hyd_progress hi ⟨p, hp, hpd⟩)
  have hne : s.procs ≠ [] := by
    intro hh
    rw [hh] at hlen
    simp at hlen
    omega
  obtain ⟨p0, hp0⟩ := List.exists_mem_of_ne_nil s.procs hne
  have hp0d : p0 = .done := hall p0 hp0
  refine ⟨?_, hall⟩
  cases hk : s.key with
  | absent =>
    simp only [hyd_inv, hk] at hi
    have := hi.2 p0 hp0
    rw [hp0d] at this
    cases this
  | downloading =>
    simp only [hyd_inv, hk] at hi
    obtain ⟨j, hj⟩ := exists_producing_of_count_pos s.procs (by omega)
    have := hall _ (get_idx_mem hj)
    cases this
  | ready =>
    simp only [hyd_inv, hk] at hi
    exact hi.1

/-- Witness for C1 at the initial state of a single caller. -/
theorem hydrate_concurrent_single_get_witness :
    (hyd_init 1).gets ≤ 1
    ∧ (∀ s', hstep (hyd_init 1) s' → hmeasure s' < hmeasure (hyd_init 1))
    ∧ ((∃ p ∈ (hyd_init 1).procs, p ≠ .done) → ∃ s', hstep (hyd_init 1) s')
    ∧ ((¬ ∃ s', hstep (hyd_init 1) s') →
        (hyd_init 1).gets = 1 ∧ ∀ p ∈ (hyd_init 1).procs, p = .done) :=
  hydrate_concurrent_single_get 1 (by decide) (hyd_init 1)
    Relation.ReflTransGen.refl

end cloud_storage

namespace cloud_storage

/-- Embeds `cloud_storage::max_index_error_bytes = 32_KiB`
(remote_segment.h): the bounded amount of unreadable trailing bytes
tolerated as end-of-file. -/
def max_index_error_bytes : Nat := 32 * 1024

end cloud_storage

namespace storage

/-- Encode a natural number as `w` little-endian base-256 bytes. -/
def encNat : Nat → Nat → List Nat
  | 0, _ => []
  | w + 1, n => n % 256 :: encNat w (n / 256)

/-- Decode little-endian base-256 bytes. -/
def decNat : List Nat → Nat
  | [] => 0
  | b :: rest => b + 256 * decNat rest

theorem length_encNat (w n : Nat) : (encNat w n).length = w := by
  induction w generalizing n with
  | zero => rfl
  | succ w ih => simp [encNat, ih]

theorem decNat_encNat (w n : Nat) : decNat (encNat w n) = n % 256 ^ w := by
  induction w generalizing n with
  | zero => simp [encNat, decNat, Nat.mod_one]
  | succ w ih =>
    rw [encNat, decNat, ih]
    rw [show (256 : Nat) ^ (w + 1) = 256 * 256 ^ w from by ring]
    rw [Nat.mod_mul]

theorem decNat_encNat_of_lt (w n : Nat) (h : n < 256 ^ w) :
    decNat (encNat w n) = n := by
  rw [decNat_encNat, Nat.mod_eq_of_lt h]

/-- Fixed record-batch header size in bytes: the spec's 61-byte header. -/
def header_bytes : Nat := 61

/-- Modelled from the spec: the batch header fields relevant to framing
— total size including the header, base offset, record count, the
format magic, and the header/body checksums (the batch parse loop's
implementation is not in the sources). -/
structure batch_header where
  size_bytes : Nat
  base_offset : Nat
  record_count : Nat
  magic : Nat
  header_crc : Nat
  body_crc : Nat
deriving DecidableEq, Repr

/-- Body checksum model. -/
def checksum (l : List Nat) : Nat := l.sum % 2 ^ 32

/-- Header checksum model over the other header fields. -/
def header_checksum (h : batch_header) : Nat :=
  (h.size_bytes + h.base_offset + h.record_count + h.magic + h.body_crc)
    % 2 ^ 32

/-- The record-batch format magic. -/
def batch_magic : Nat := 2

/-- Serialize a header to its 61-byte wire form:
size(8) base(8) count(8) magic(1) header_crc(8) body_crc(8)
reserved(20). -/
def encode_header (h : batch_header) : List Nat :=
  encNat 8 h.size_bytes ++ (encNat 8 h.base_offset
    ++ (encNat 8 h.record_count ++ ([h.magic] ++ (encNat 8 h.header_crc
    ++ (encNat 8 h.body_crc ++ List.replicate 20 0)))))

/-- Read the header fields back from a 61-byte prefix. -/
def decode_header (l : List Nat) : batch_header :=
  let r1 := l.drop 8
  let r2 := r1.drop 8
  let r3 := r2.drop 8
  let r4 := r3.drop 1
  let r5 := r4.drop 8
  { size_bytes := decNat (l.take 8)
    base_offset := decNat (r1.take 8)
    record_count := decNat (r2.take 8)
    magic := r3.headD 0
    header_crc := decNat (r4.take 8)
    body_crc := decNat (r5.take 8) }

/-- Modelled from the spec: header framing validation — length bound,
magic, header CRC. -/
def valid_header (h : batch_header) : Prop :=
  header_bytes ≤ h.size_bytes ∧ h.magic = batch_magic
    ∧ h.header_crc = header_checksum h

instance (h : batch_header) : Decidable (valid_header h) := by
  unfold valid_header
  infer_instance

/-- A batch recovered by the parse loop: its header and body bytes. -/
structure parsed_batch where
  header : batch_header
  body : List Nat
deriving DecidableEq, Repr

/-- How an incremental parse ends. -/
inductive parse_outcome
  | end_of_stream
  | corruption
deriving DecidableEq, Repr

/-- Batches recovered before the stream ended, and how it ended. -/
structure parse_result where
  batches : List parsed_batch
  outcome : parse_outcome
deriving DecidableEq, Repr

/-- Modelled from the spec: the incremental batch parse loop over the
byte stream (the implementation is not in the sources). Per batch it
reads the fixed 61-byte header prefix, verifies framing (magic, length
bound, header CRC), reads and CRC-checks the body, emits the batch and
loops. A short read at the header, an all-zero header prefix (the
writer's trailing padding) or a short body read end the stream when the
unread trailing region is at most `max_index_error_bytes` and are
corruption otherwise; a framing or CRC violation is corruption. -/
def parse_go : Nat → List Nat → parse_result
  | 0, _ => ⟨[], .corruption⟩
  | fuel + 1, bytes =>
    if bytes.length < header_bytes then
      if bytes.length ≤ cloud_storage.max_index_error_bytes then
        ⟨[], .end_of_stream⟩
      else ⟨[], .corruption⟩
    else
      if (bytes.take header_bytes).all (fun b => b == 0) then
        if bytes.length ≤ cloud_storage.max_index_error_bytes then
          ⟨[], .end_of_stream⟩
        else ⟨[], .corruption⟩
      else
        if valid_header (decode_header (bytes.take header_bytes)) then
          if bytes.length
              < (decode_header (bytes.take header_bytes)).size_bytes then
            if bytes.length ≤ cloud_storage.max_index_error_bytes then
              ⟨[], .end_of_stream⟩
            else ⟨[], .corruption⟩
          else
            if checksum ((bytes.drop header_bytes).take
                ((decode_header (bytes.take header_bytes)).size_bytes
                  - header_bytes))
                = (decode_header (bytes.take header_bytes)).body_crc then
              ⟨⟨decode_header (bytes.take header_bytes),
                (bytes.drop header_bytes).take
                  ((decode_header (bytes.take header_bytes)).size_bytes
                    - header_bytes)⟩
                :: (parse_go fuel (bytes.drop
                    (decode_header (bytes.take header_bytes)).size_bytes)
                  ).batches,
               (parse_go fuel (bytes.drop
                   (decode_header (bytes.take header_bytes)).size_bytes)
                 ).outcome⟩
            else ⟨[], .corruption⟩
        else ⟨[], .corruption⟩

/-- The parse of a whole stream: enough fuel for every batch (each
batch consumes at least the 61 header bytes). -/
def parse_batches (bytes : List Nat) : parse_result :=
  parse_go (bytes.length + 1) bytes

/-- The fuel is irrelevant as long as it exceeds the stream length. -/
theorem parse_go_irrel : ∀ (f1 : Nat) (bytes : List Nat) (f2 : Nat),
    bytes.length < f1 → bytes.length < f2 →
    parse_go f1 bytes = parse_go f2 bytes := by
  intro f1
  induction f1 with
  | zero =>
    intro bytes f2 h1 _
    omega
  | succ n ih =>
    intro bytes f2 h1 h2
    cases f2 with
    | zero => omega
    | succ m =>
      rw [parse_go]
      rw [parse_go]
      by_cases c1 : bytes.length < header_bytes
      · simp [c1]
      · simp only [if_neg c1]
        by_cases c2 : ((bytes.take header_bytes).all
            (fun x => x == 0)) = true
        · simp [c2]
        · simp only [if_neg c2]
          by_cases c3 : valid_header (decode_header
              (bytes.take header_bytes))
          · simp only [if_pos c3]
            by_cases c4 : bytes.length
                < (decode_header (bytes.take header_bytes)).size_bytes
            · simp [c4]
            · simp only [if_neg c4]
              by_cases c5 : checksum ((bytes.drop header_bytes).take
                  ((decode_header (bytes.take header_bytes)).size_bytes
                    - header_bytes))
                  = (decode_header (bytes.take header_bytes)).body_crc
              · simp only [if_pos c5]
                have hb : 0 < header_bytes := by decide
                have hs := c3.1
                have hrec : parse_go n (bytes.drop
                    (decode_header (bytes.take header_bytes)).size_bytes)
                    = parse_go m (bytes.drop
                    (decode_header (bytes.take header_bytes)).size_bytes)
                    := by
                  apply ih
                  · simp only [List.length_drop]
                    omega
                  · simp only [List.length_drop]
                    omega
                rw [hrec]
              · simp [c5]
          · simp [c3]


/-- Logical content of a batch to serialize: base offset, record count
and body bytes. -/
structure batch_data where
  base_offset : Nat
  record_count : Nat
  body : List Nat
deriving DecidableEq, Repr

/-- The header the writer computes for a batch. -/
def mk_header (b : batch_data) : batch_header :=
  { size_bytes := header_bytes + b.body.length
    base_offset := b.base_offset
    record_count := b.record_count
    magic := batch_magic
    header_crc := (header_bytes + b.body.length + b.base_offset
      + b.record_count + batch_magic + checksum b.body) % 2 ^ 32
    body_crc := checksum b.body }

/-- Wire form of one batch: header then body. -/
def serialize_batch (b : batch_data) : List Nat :=
  encode_header (mk_header b) ++ b.body

/-- Wire form of a batch sequence. -/
def serialize_batches : List batch_data → List Nat
  | [] => []
  | b :: rest => serialize_batch b ++ serialize_batches rest

/-- Encodable batch: the numeric fields fit their 8-byte wire slots. -/
def wf_batch (b : batch_data) : Prop :=
  b.base_offset < 2 ^ 64 ∧ b.record_count < 2 ^ 64
    ∧ header_bytes + b.body.length < 2 ^ 64

instance (b : batch_data) : Decidable (wf_batch b) := by
  unfold wf_batch
  infer_instance

/-- The parsed form of a serialized batch. -/
def parsed_of (b : batch_data) : parsed_batch := ⟨mk_header b, b.body⟩

theorem length_encode_header (h : batch_header) :
    (encode_header h).length = header_bytes := by
  simp [encode_header, length_encNat, header_bytes]

theorem decode_encode_header (h : batch_header)
    (h1 : h.size_bytes < 2 ^ 64) (h2 : h.base_offset < 2 ^ 64)
    (h3 : h.record_count < 2 ^ 64) (h4 : h.header_crc < 2 ^ 64)
    (h5 : h.body_crc < 2 ^ 64) :
    decode_header (encode_header h) = h := by
  have e256 : (2 : Nat) ^ 64 = 256 ^ 8 := by norm_num
  rw [e256] at h1 h2 h3 h4 h5
  have t1 : (encode_header h).take 8 = encNat 8 h.size_bytes := by
    rw [encode_header]
    exact List.take_left' (length_encNat 8 _)
  have r1 : (encode_header h).drop 8
      = encNat 8 h.base_offset ++ (encNat 8 h.record_count ++ ([h.magic]
        ++ (encNat 8 h.header_crc ++ (encNat 8 h.body_crc
        ++ List.replicate 20 0)))) := by
    rw [encode_header]
    exact List.drop_left' (length_encNat 8 _)
  have t2 : ((encode_header h).drop 8).take 8 = encNat 8 h.base_offset := by
    rw [r1]
    exact List.take_left' (length_encNat 8 _)
  have r2 : ((encode_header h).drop 8).drop 8
      = encNat 8 h.record_count ++ ([h.magic]
        ++ (encNat 8 h.header_crc ++ (encNat 8 h.body_crc
        ++ List.replicate 20 0))) := by
    rw [r1]
    exact List.drop_left' (length_encNat 8 _)
  have t3 : (((encode_header h).drop 8).drop 8).take 8
      = encNat 8 h.record_count := by
    rw [r2]
    exact List.take_left' (length_encNat 8 _)
  have r3 : (((encode_header h).drop 8).drop 8).drop 8
      = [h.magic] ++ (encNat 8 h.header_crc ++ (encNat 8 h.body_crc
        ++ List.replicate 20 0)) := by
    rw [r2]
    exact List.drop_left' (length_encNat 8 _)
  have hm : ((((encode_header h).drop 8).drop 8).drop 8).headD 0
      = h.magic := by
    rw [r3]
    rfl
  have r4 : ((((encode_header h).drop 8).drop 8).drop 8).drop 1
      = encNat 8 h.header_crc ++ (encNat 8 h.body_crc
        ++ List.replicate 20 0) := by
    rw [r3]
    exact List.drop_left' rfl
  have t4 : (((((encode_header h).drop 8).drop 8).drop 8).drop 1).take 8
      = encNat 8 h.header_crc := by
    rw [r4]
    exact List.take_left' (length_encNat 8 _)
  have r5 : (((((encode_header h).drop 8).drop 8).drop 8).drop 1).drop 8
      = encNat 8 h.body_crc ++ List.replicate 20 0 := by
    rw [r4]
    exact List.drop_left' (length_encNat 8 _)
  have t5 : ((((((encode_header h).drop 8).drop 8).drop 8).drop 1).drop
      8).take 8 = encNat 8 h.body_crc := by
    rw [r5]
    exact List.take_left' (length_encNat 8 _)
  simp only [decode_header, t1, t2, t3, hm, t4, t5]
  rw [decNat_encNat_of_lt 8 _ h1, decNat_encNat_of_lt 8 _ h2,
    decNat_encNat_of_lt 8 _ h3, decNat_encNat_of_lt 8 _ h4,
    decNat_encNat_of_lt 8 _ h5]

theorem encode_header_all_zero_false (h : batch_header)
    (hm : h.magic = batch_magic) :
    ((encode_header h).all (fun b => b == 0)) = false := by
  rw [List.all_eq_false]
  refine ⟨h.magic, ?_, by simp [hm, batch_magic]⟩
  rw [encode_header]
  simp

theorem parse_serialize_cons (b : batch_data) (rest : List Nat)
    (hw : wf_batch b) :
    parse_batches (serialize_batch b ++ rest)
      = ⟨parsed_of b :: (parse_batches rest).batches,
         (parse_batches rest).outcome⟩ := by
  obtain ⟨hw1, hw2, hw3⟩ := hw
  have hassoc : serialize_batch b ++ rest
      = encode_header (mk_header b) ++ (b.body ++ rest) := by
    simp [serialize_batch]
  have hb1 : (mk_header b).size_bytes < 2 ^ 64 := hw3
  have hb2 : (mk_header b).base_offset < 2 ^ 64 := hw1
  have hb3 : (mk_header b).record_count < 2 ^ 64 := hw2
  have hb4 : (mk_header b).header_crc < 2 ^ 64 := by
    show (header_bytes + b.body.length + b.base_offset + b.record_count
      + batch_magic + checksum b.body) % 2 ^ 32 < 2 ^ 64
    calc (header_bytes + b.body.length + b.base_offset + b.record_count
        + batch_magic + checksum b.body) % 2 ^ 32
        < 2 ^ 32 := Nat.mod_lt _ (by norm_num)
      _ ≤ 2 ^ 64 := by norm_num
  have hb5 : (mk_header b).body_crc < 2 ^ 64 := by
    show b.body.sum % 2 ^ 32 < 2 ^ 64
    calc b.body.sum % 2 ^ 32 < 2 ^ 32 := Nat.mod_lt _ (by norm_num)
      _ ≤ 2 ^ 64 := by norm_num
  have htake : (serialize_batch b ++ rest).take header_bytes
      = encode_header (mk_header b) := by
    rw [hassoc]
    exact List.take_left' (length_encode_header _)
  have hdec : decode_header ((serialize_batch b ++ rest).take header_bytes)
      = mk_header b := by
    rw [htake, decode_encode_header _ hb1 hb2 hb3 hb4 hb5]
  have hlen : (serialize_batch b ++ rest).length
      = header_bytes + b.body.length + rest.length := by
    simp [serialize_batch, length_encode_header]
    omega
  have h1 : ¬ (serialize_batch b ++ rest).length < header_bytes := by
    rw [hlen]
    omega
  have h2 : ¬ ((serialize_batch b ++ rest).take header_bytes).all
      (fun x => x == 0) = true := by
    rw [htake, encode_header_all_zero_false _ rfl]
    simp
  have h3 : valid_header (decode_header
      ((serialize_batch b ++ rest).take header_bytes)) := by
    rw [hdec]
    exact ⟨Nat.le_add_right _ _, rfl, rfl⟩
  have h4 : ¬ (serialize_batch b ++ rest).length
      < (decode_header ((serialize_batch b ++ rest).take
          header_bytes)).size_bytes := by
    rw [hdec]
    show ¬ _ < header_bytes + b.body.length
    rw [hlen]
    omega
  have hdrop : (serialize_batch b ++ rest).drop header_bytes
      = b.body ++ rest := by
    rw [hassoc]
    exact List.drop_left' (length_encode_header _)
  have hbody : ((serialize_batch b ++ rest).drop header_bytes).take
      ((decode_header ((serialize_batch b ++ rest).take
        header_bytes)).size_bytes - header_bytes) = b.body := by
    rw [hdec, hdrop]
    show (b.body ++ rest).take (header_bytes + b.body.length
      - header_bytes) = b.body
    rw [Nat.add_sub_cancel_left]
    exact List.take_left' rfl
  have hdropsize : (serialize_batch b ++ rest).drop
      (decode_header ((serialize_batch b ++ rest).take
        header_bytes)).size_bytes = rest := by
    rw [hdec]
    have hre : serialize_batch b ++ rest
        = (encode_header (mk_header b) ++ b.body) ++ rest := by
      simp [serialize_batch]
    rw [hre]
    apply List.drop_left'
    simp [length_encode_header, mk_header]
  rw [parse_batches, parse_go, if_neg h1, if_neg h2, if_pos h3,
    if_neg h4, hbody, hdropsize, hdec]
  have hcc : checksum b.body = (mk_header b).body_crc := by
    simp [mk_header]
  rw [if_pos hcc]
  have hirr : parse_go (serialize_batch b ++ rest).length rest
      = parse_go (rest.length + 1) rest := by
    apply parse_go_irrel
    · rw [hlen]
      have hb : 0 < header_bytes := by decide
      omega
    · omega
  rw [hirr]
  rfl

theorem parse_zeros (k : Nat) :
    parse_batches (List.replicate k 0)
      = if k ≤ cloud_storage.max_index_error_bytes
        then ⟨[], .end_of_stream⟩ else ⟨[], .corruption⟩ := by
  rw [parse_batches, parse_go]
  by_cases hk : (List.replicate k (0 : Nat)).length < header_bytes
  · rw [if_pos hk]
    simp
  · rw [if_neg hk]
    have hz : ((List.replicate k (0 : Nat)).take header_bytes).all
        (fun x => x == 0) = true := by
      rw [List.take_replicate]
      simp
    rw [if_pos hz]
    simp

theorem parse_serialize_batches (bs : List batch_data)
    (hw : ∀ b ∈ bs, wf_batch b) (tail : List Nat) :
    parse_batches (serialize_batches bs ++ tail)
      = ⟨bs.map parsed_of ++ (parse_batches tail).batches,
         (parse_batches tail).outcome⟩ := by
  induction bs with
  | nil => simp [serialize_batches]
  | cons b rest ih =>
    have hwb : wf_batch b := hw b (by simp)
    have hwr : ∀ x ∈ rest, wf_batch x := fun x hx => hw x (by simp [hx])
    rw [serialize_batches, List.append_assoc,
      parse_serialize_cons b _ hwb, ih hwr]
    simp

/-- Claim C2: appending a trailing region of `k` unreadable (zero)
bytes to a valid serialized batch stream yields the same parse with
end-of-stream exactly when `k ≤ max_index_error_bytes` (32 KiB); any
larger unreadable trailing region makes the parse end in corruption
(with the same batches recovered before it). -/
theorem parse_padding_tolerance (bs : List batch_data)
    (hw : ∀ b ∈ bs, wf_batch b) (k : Nat) :
    (parse_batches (serialize_batches bs ++ List.replicate k 0)
        = parse_batches (serialize_batches bs)
      ↔ k ≤ cloud_storage.max_index_error_bytes)
    ∧ (parse_batches (serialize_batches bs)).outcome
        = parse_outcome.end_of_stream
    ∧ (cloud_storage.max_index_error_bytes < k →
        parse_batches (serialize_batches bs ++ List.replicate k 0)
          = ⟨(parse_batches (serialize_batches bs)).batches,
             .corruption⟩) := by
  have h0 : parse_batches [] = ⟨[], .end_of_stream⟩ := by
    have := parse_zeros 0
    simpa using this
  have hbase : parse_batches (serialize_batches bs)
      = ⟨bs.map parsed_of, .end_of_stream⟩ := by
    have := parse_serialize_batches bs hw []
    rw [List.append_nil, h0] at this
    simpa using this
  have hpad := parse_serialize_batches bs hw (List.replicate k 0)
  refine ⟨⟨?_, ?_⟩, by rw [hbase], ?_⟩
  · intro he
    by_contra hgt
    push_neg at hgt
    rw [hpad, parse_zeros k, if_neg (by omega), hbase] at he
    simp at he
  · intro hle
    rw [hpad, parse_zeros k, if_pos hle, hbase]
    simp
  · intro hgt
    rw [hpad, parse_zeros k, if_neg (by omega), hbase]
    simp

/-- The concrete batch used by the C2 witness. -/
def c2_batch : batch_data := ⟨3, 1, [7, 7]⟩

/-- Witness for C2 with 100 bytes of trailing padding. -/
theorem parse_padding_tolerance_witness :
    (parse_batches (serialize_batches [c2_batch] ++ List.replicate 100 0)
        = parse_batches (serialize_batches [c2_batch])
      ↔ (100 : Nat) ≤ cloud_storage.max_index_error_bytes)
    ∧ (parse_batches (serialize_batches [c2_batch])).outcome
        = parse_outcome.end_of_stream
    ∧ (cloud_storage.max_index_error_bytes < 100 →
        parse_batches (serialize_batches [c2_batch]
            ++ List.replicate 100 0)
          = ⟨(parse_batches (serialize_batches [c2_batch])).batches,
             .corruption⟩) :=
  parse_padding_tolerance [c2_batch] (by decide) 100

end storage
